import Mathlib

/-!
Verification of the inline geometric algorithms of the comp-geo-website
repository: ear-clipping triangulation (`src/pages/triangulation.tsx`),
monotone-chain convex hull (`src/pages/delaunay.tsx`), segment
intersection (`src/pages/line-intersection.tsx`), line-arrangement
intersections (arrangement page), polygon area
(`src/pages/geometric-primitives.tsx`) and spherical geodesic
interpolation (`src/pages/geodesic.tsx`).

The 2D algorithms are embedded over `ℚ` (the idealisation of JavaScript
float arithmetic: every branch in the sources compares exact arithmetic
expressions, so the control flow is faithfully reproduced by exact
rationals).  The geodesic interpolator uses transcendental functions and
is embedded over `ℝ`.

JavaScript object identity (`===`) on points, which the triangulator
uses to skip shared vertices, is modelled by tagging each vertex with its
index in the input array (`List.enum`): every click allocates a fresh
object, so objects are identical exactly when they are the same entry of
the working array.
-/

namespace CompGeo

/-- A 2D point, as in the `Point` interface of the pages. -/
structure Point where
  x : ℚ
  y : ℚ
deriving DecidableEq, Repr

/-- Default point used for (always in-range) list indexing. -/
def originPt : Point := ⟨0, 0⟩

/-- Adjacent pairs of a list: `[a,b,c] ↦ [(a,b),(b,c)]`. -/
def adjPairs {α : Type} : List α → List (α × α)
  | a :: b :: t => (a, b) :: adjPairs (b :: t)
  | _ => []

/-- Adjacent triples of a list: `[a,b,c,d] ↦ [(a,b,c),(b,c,d)]`. -/
def adjTriples {α : Type} : List α → List (α × α × α)
  | a :: b :: c :: t => (a, b, c) :: adjTriples (b :: c :: t)
  | _ => []

/-- Cyclically adjacent pairs `(lᵢ, l₍ᵢ₊₁ mod n₎)` of a list. -/
def cyclicPairs {α : Type} (l : List α) : List (α × α) :=
  adjPairs (l ++ l.take 1)

/-- Cyclically adjacent triples of a list. -/
def cyclicTriples {α : Type} (l : List α) : List (α × α × α) :=
  adjTriples (l ++ l.take 2)

/-- Summand of the shoelace loop body: `x_i*y_j - x_j*y_i`. -/
def shoelaceTerm (ab : Point × Point) : ℚ :=
  ab.1.x * ab.2.y - ab.2.x * ab.1.y

/-- Signed doubled area accumulated by the loop of `calculatePolygonArea`:
the sum of `x_i*y_{(i+1)%n} - x_{(i+1)%n}*y_i` over all `i`. -/
def shoelace2 (l : List Point) : ℚ :=
  ((cyclicPairs l).map shoelaceTerm).sum

/-- Shoelace polygon area, from `geometric-primitives.tsx`
(`calculatePolygonArea`): 0 for fewer than 3 vertices, else
`|Σ (x_i y_{i+1} - x_{i+1} y_i)| / 2` with indices mod `n`. -/
def calculatePolygonArea (vertices : List Point) : ℚ :=
  if vertices.length < 3 then 0 else |shoelace2 vertices| / 2

/-- The `crossProduct` helper of `earClipTriangulation` (also the `cross`
of `calculateConvexHull`): z-component of `(a-o) × (b-o)`. -/
def crossProduct (o a b : Point) : ℚ :=
  (a.x - o.x) * (b.y - o.y) - (a.y - o.y) * (b.x - o.x)

/-- A triangle as produced by the triangulation page. -/
structure Triangle where
  vertices : List Point
deriving DecidableEq, Repr

/-- A polygon vertex tagged with its index in the input array; the tag
models JavaScript object identity (`===`). -/
abbrev TVertex := ℕ × Point

/-- Default tagged vertex used for (always in-range) list indexing. -/
def defaultTV : TVertex := (0, originPt)

/-- The `ccw` helper inside `doSegmentsIntersect` of
`earClipTriangulation` (note: a different formula from `crossProduct`). -/
def ccw (A B C : Point) : ℚ :=
  (C.y - A.y) * (B.x - A.x) - (B.y - A.y) * (C.x - A.x)

/-- The `sign` helper inside the triangulator's `pointInTriangle`. -/
def sign3 (p1 p2 p3 : Point) : ℚ :=
  (p1.x - p3.x) * (p2.y - p3.y) - (p2.x - p3.x) * (p1.y - p3.y)

/-- The triangulator's `pointInTriangle`: same-sign test of the three
`sign` values; boundary points (a zero sign) count as inside. -/
def pointInTriangle (pt v1 v2 v3 : Point) : Bool :=
  let d1 := sign3 pt v1 v2
  let d2 := sign3 pt v2 v3
  let d3 := sign3 pt v3 v1
  let hasNeg := decide (d1 < 0 ∨ d2 < 0 ∨ d3 < 0)
  let hasPos := decide (0 < d1 ∨ 0 < d2 ∨ 0 < d3)
  !(hasNeg && hasPos)

/-- The triangulator's `doSegmentsIntersect`: segments sharing an
endpoint (object identity, here: equal tags) never intersect; otherwise
a strict four-orientation test. -/
def doSegmentsIntersect (p1 p2 p3 p4 : TVertex) : Bool :=
  let a := ccw p1.2 p2.2 p3.2
  let b := ccw p1.2 p2.2 p4.2
  let c := ccw p3.2 p4.2 p1.2
  let d := ccw p3.2 p4.2 p2.2
  if p1.1 = p3.1 ∨ p1.1 = p4.1 ∨ p2.1 = p3.1 ∨ p2.1 = p4.1 then false
  else decide (a * b < 0 ∧ c * d < 0)

/-- The triangulator's `isValidDiagonal`: the diagonal crosses no polygon
edge, where edges sharing a vertex with the diagonal are skipped. -/
def isValidDiagonal (s e : TVertex) (polygon : List TVertex) : Bool :=
  (List.range polygon.length).all fun i =>
    let next := (i + 1) % polygon.length
    let pi := polygon.getD i defaultTV
    let pn := polygon.getD next defaultTV
    if pi.1 = s.1 ∨ pi.1 = e.1 ∨ pn.1 = s.1 ∨ pn.1 = e.1 then true
    else !(doSegmentsIntersect s e pi pn)

/-- The triangulator's `isEar` test at index `i`: strictly
counter-clockwise corner, valid diagonal, and no other remaining vertex
inside the candidate triangle. -/
def isEar (polygon : List TVertex) (i : ℕ) : Bool :=
  let n := polygon.length
  let prev := polygon.getD ((i + n - 1) % n) defaultTV
  let curr := polygon.getD i defaultTV
  let next := polygon.getD ((i + 1) % n) defaultTV
  if crossProduct prev.2 curr.2 next.2 ≤ 0 then false
  else if !(isValidDiagonal prev next polygon) then false
  else polygon.all fun p =>
    if p.1 = prev.1 ∨ p.1 = curr.1 ∨ p.1 = next.1 then true
    else !(pointInTriangle p.2 prev.2 curr.2 next.2)

/-- Index of the first ear of the remaining ring (the inner `for` loop of
`earClipTriangulation`). -/
def findEarIdx (polygon : List TVertex) : Option ℕ :=
  (List.range polygon.length).find? (isEar polygon)

/-- The `while` loop of `earClipTriangulation`, with explicit fuel (the
JavaScript loop is unbounded; `clipLoop_fuel_stable` below shows that
`polygon.length` fuel always suffices, i.e. the loop terminates).  Each
iteration clips the first ear found and appends its triangle; if no ear
is found the loop stops, returning the triangles so far and the
remaining ring. -/
def clipLoop : ℕ → List TVertex → List Triangle → List Triangle × List TVertex
  | 0, poly, acc => (acc, poly)
  | fuel + 1, poly, acc =>
    if 3 < poly.length then
      match findEarIdx poly with
      | some i =>
        let n := poly.length
        let prev := poly.getD ((i + n - 1) % n) defaultTV
        let curr := poly.getD i defaultTV
        let next := poly.getD ((i + 1) % n) defaultTV
        clipLoop fuel (poly.eraseIdx i) (acc ++ [⟨[prev.2, curr.2, next.2]⟩])
      | none => (acc, poly)
    else (acc, poly)

/-- `earClipTriangulation` of `triangulation.tsx`: fewer than 3 vertices
give no triangles; otherwise run the clipping loop and, if exactly 3
vertices remain, append the final triangle. -/
def earClipTriangulation (polygon : List Point) : List Triangle :=
  if polygon.length < 3 then []
  else
    let res := clipLoop polygon.length polygon.enum []
    if res.2.length = 3 then res.1 ++ [⟨res.2.map Prod.snd⟩] else res.1

/-- Lexicographic comparison encoding the hull page's sort comparator
`(a, b) => a.x - b.x || a.y - b.y` (sort ascending by x, ties by y). -/
def lexLe (a b : Point) : Prop :=
  a.x < b.x ∨ (a.x = b.x ∧ a.y ≤ b.y)

instance : DecidableRel lexLe := fun a b => by
  unfold lexLe; infer_instance

/-- Strict lexicographic order on points. -/
def lexLt (a b : Point) : Prop :=
  a.x < b.x ∨ (a.x = b.x ∧ a.y < b.y)

/-- The `while`/`pop` loop of `calculateConvexHull`: with the chain kept
in reversed order (most recently pushed first), pop the top while the
top two chain points and the incoming point make a non-left turn. -/
def popBad (p : Point) : List Point → List Point
  | b :: a :: rest =>
    if crossProduct a b p ≤ 0 then popBad p (a :: rest) else b :: a :: rest
  | l => l

/-- One iteration of a chain-building `for` loop of
`calculateConvexHull`: pop bad turns, then push the new point. -/
def hullStep (acc : List Point) (p : Point) : List Point :=
  p :: popBad p acc

/-- A half-hull chain (in traversal order) built from a point list. -/
def chainOf (pts : List Point) : List Point :=
  (pts.foldl hullStep []).reverse

/-- `calculateConvexHull` of `delaunay.tsx` (monotone chain): fewer than
3 points are returned unchanged; otherwise sort lexicographically, build
the lower chain, build the upper chain on the reversed order, drop the
duplicated chain endpoints and concatenate.  (`Array.prototype.sort` is
stable, and a stable sort's output is uniquely determined by the
comparator, so any stable sort embeds it faithfully; insertion sort is
used here.) -/
def calculateConvexHull (inputPoints : List Point) : List Point :=
  if inputPoints.length < 3 then inputPoints
  else
    let sortedPoints := inputPoints.insertionSort lexLe
    let lower := chainOf sortedPoints
    let upper := chainOf sortedPoints.reverse
    lower.dropLast ++ upper.dropLast

/-- The `Line` interface of `line-intersection.tsx`: a segment whose end
point may still be unset while the user is drawing.  (`end` is a Lean
keyword; the field is named `stop`.) -/
structure Segment where
  start : Point
  stop : Option Point
deriving DecidableEq, Repr

/-- `isPointOnSegment` of `line-intersection.tsx`: inclusive
bounding-box membership. -/
def isPointOnSegment (point segmentStart segmentEnd : Point) : Bool :=
  let minX := min segmentStart.x segmentEnd.x
  let maxX := max segmentStart.x segmentEnd.x
  let minY := min segmentStart.y segmentEnd.y
  let maxY := max segmentStart.y segmentEnd.y
  decide (minX ≤ point.x ∧ point.x ≤ maxX ∧ minY ≤ point.y ∧ point.y ≤ maxY)

/-- `calculateIntersection` of `line-intersection.tsx`: null end points
give no intersection; a zero determinant of the two implicit line
equations gives no intersection; otherwise the Cramer's-rule point is
returned exactly when it lies in both segments' bounding boxes. -/
def calculateIntersection (line1 line2 : Segment) : Option Point :=
  match line1.stop, line2.stop with
  | some q1, some q2 =>
    let p1 := line1.start
    let p2 := line2.start
    let a1 := q1.y - p1.y
    let b1 := p1.x - q1.x
    let c1 := a1 * p1.x + b1 * p1.y
    let a2 := q2.y - p2.y
    let b2 := p2.x - q2.x
    let c2 := a2 * p2.x + b2 * p2.y
    let determinant := a1 * b2 - a2 * b1
    if determinant = 0 then none
    else
      let px := (b2 * c1 - b1 * c2) / determinant
      let py := (a1 * c2 - a2 * c1) / determinant
      if isPointOnSegment ⟨px, py⟩ p1 q1 ∧ isPointOnSegment ⟨px, py⟩ p2 q2
      then some ⟨px, py⟩ else none
  | _, _ => none

/-- A line in slope-intercept form, as on the arrangement page (the
UI-only `id` field is omitted). -/
structure ALine where
  m : ℚ
  b : ℚ
deriving DecidableEq, Repr

/-- The arrangement page's bounding window. -/
structure Bounds where
  width : ℚ
  height : ℚ
deriving DecidableEq, Repr

/-- Body of the arrangement page's double loop for one pair of lines:
skip exactly-equal slopes, solve `x = (b₂-b₁)/(m₁-m₂)`, `y = m₁x+b₁`,
and keep the point iff it lies in the bounding window. -/
def pairInter (bounds : Bounds) (line1 line2 : ALine) : Option Point :=
  if line1.m = line2.m then none
  else
    let x := (line2.b - line1.b) / (line1.m - line2.m)
    let y := line1.m * x + line1.b
    if 0 ≤ x ∧ x ≤ bounds.width ∧ 0 ≤ y ∧ y ≤ bounds.height
    then some ⟨x, y⟩ else none

/-- The `intersections` computation of the arrangement page: every
unordered pair `i < j` of lines, in loop order. -/
def intersections (bounds : Bounds) : List ALine → List Point
  | [] => []
  | l :: rest => rest.filterMap (pairInter bounds l) ++ intersections bounds rest

/-- A 3D point on the demo sphere, as in `geodesic.tsx` (`Point3D`). -/
structure Point3D where
  x : ℝ
  y : ℝ
  z : ℝ
  phi : ℝ
  theta : ℝ

/-- Latitude/longitude pair of the geodesic result. -/
structure LatLon where
  lat : ℝ
  lon : ℝ

/-- The `GeodesicResult` record of `geodesic.tsx`. -/
structure GeodesicResult where
  path : List Point3D
  length : ℝ
  straightDistance : ℝ
  startCoords : LatLon
  endCoords : LatLon

/-- The `SPHERE_RADIUS` constant of `geodesic.tsx`. -/
def SPHERE_RADIUS : ℝ := 150

/-- The `EARTH_RADIUS` constant of `geodesic.tsx` (kilometres). -/
def EARTH_RADIUS : ℝ := 6371

/-- The `radToDeg` helper of `geodesic.tsx`. -/
noncomputable def radToDeg (rad : ℝ) : ℝ := rad * 180 / Real.pi

/-- Central angle computed by `computeSphericalGeodesic`:
`acos(clamp(dot(start,end)/R², -1, 1))`. -/
noncomputable def centralAngle (startPoint endPoint : Point3D) : ℝ :=
  let dot := (startPoint.x * endPoint.x + startPoint.y * endPoint.y +
    startPoint.z * endPoint.z) / (SPHERE_RADIUS * SPHERE_RADIUS)
  Real.arccos (max (-1) (min 1 dot))

/-- One sample of the interpolation loop of `computeSphericalGeodesic`:
weights `sin((1-t)·angle)/sin(angle)` and `sin(t·angle)/sin(angle)` at
`t = i/steps` (no guard: the division by `sin(angle)` is unconditional). -/
noncomputable def slerpPoint (startPoint endPoint : Point3D) (angle : ℝ)
    (steps i : ℕ) : Point3D :=
  let t : ℝ := (i : ℝ) / (steps : ℝ)
  let subAngle := angle * t
  let sinSubAngle := Real.sin subAngle
  let sinComplAngle := Real.sin (angle - subAngle)
  let sinAngle := Real.sin angle
  ⟨(startPoint.x * sinComplAngle + endPoint.x * sinSubAngle) / sinAngle,
   (startPoint.y * sinComplAngle + endPoint.y * sinSubAngle) / sinAngle,
   (startPoint.z * sinComplAngle + endPoint.z * sinSubAngle) / sinAngle,
   0, 0⟩

/-- `computeSphericalGeodesic` of `geodesic.tsx`: 51 interpolated path
points, arc length `R·angle`, chord length the Euclidean distance of the
endpoints — both then scaled by `EARTH_RADIUS / SPHERE_RADIUS` into
kilometres before being returned. -/
noncomputable def computeSphericalGeodesic (startPoint endPoint : Point3D) :
    GeodesicResult :=
  let steps : ℕ := 50
  let angle := centralAngle startPoint endPoint
  let path := (List.range (steps + 1)).map (slerpPoint startPoint endPoint angle steps)
  let length := SPHERE_RADIUS * angle
  let straightDistance := Real.sqrt ((endPoint.x - startPoint.x) ^ 2 +
    (endPoint.y - startPoint.y) ^ 2 + (endPoint.z - startPoint.z) ^ 2)
  let scaleFactor := EARTH_RADIUS / SPHERE_RADIUS
  { path := path
    length := length * scaleFactor
    straightDistance := straightDistance * scaleFactor
    startCoords := ⟨radToDeg (Real.pi / 2 - startPoint.phi),
      radToDeg (Real.pi - startPoint.theta)⟩
    endCoords := ⟨radToDeg (Real.pi / 2 - endPoint.phi),
      radToDeg (Real.pi - endPoint.theta)⟩ }

/-- Collinearity-and-bounding-box membership of a point on a segment,
used by the simple-polygon predicate. -/
def onSegQ (p a b : Point) : Prop :=
  crossProduct a b p = 0 ∧ min a.x b.x ≤ p.x ∧ p.x ≤ max a.x b.x ∧
    min a.y b.y ≤ p.y ∧ p.y ≤ max a.y b.y

/-- Closed-segment intersection test (standard orientation test plus
collinear on-segment cases); used only to state polygon simplicity. -/
def segsMeet (p1 p2 p3 p4 : Point) : Prop :=
  let d1 := crossProduct p3 p4 p1
  let d2 := crossProduct p3 p4 p2
  let d3 := crossProduct p1 p2 p3
  let d4 := crossProduct p1 p2 p4
  (((0 < d1 ∧ d2 < 0) ∨ (d1 < 0 ∧ 0 < d2)) ∧
    ((0 < d3 ∧ d4 < 0) ∨ (d3 < 0 ∧ 0 < d4))) ∨
  (d1 = 0 ∧ onSegQ p1 p3 p4) ∨ (d2 = 0 ∧ onSegQ p2 p3 p4) ∨
  (d3 = 0 ∧ onSegQ p3 p1 p2) ∨ (d4 = 0 ∧ onSegQ p4 p1 p2)

/-- Simplicity of a polygon, the spec's side condition on triangulation
input ("must be simple (non-self-intersecting)"): at least 3 distinct
vertices and no two non-adjacent cyclic edges share any point. -/
def IsSimplePolygon (l : List Point) : Prop :=
  3 ≤ l.length ∧ l.Nodup ∧
    ∀ i ∈ List.range l.length, ∀ j ∈ List.range l.length,
      (i + 1) % l.length ≠ j → (j + 1) % l.length ≠ i → i ≠ j →
      ¬ segsMeet (l.getD i originPt) (l.getD ((i + 1) % l.length) originPt)
          (l.getD j originPt) (l.getD ((j + 1) % l.length) originPt)

/-- Doubled signed area of a produced triangle (`crossProduct` of its
three vertices, 0 for malformed vertex lists). -/
def triCross (t : Triangle) : ℚ :=
  match t.vertices with
  | [a, b, c] => crossProduct a b c
  | _ => 0

/-- Area of a produced triangle, measured with the page's own
`calculatePolygonArea`. -/
def triArea (t : Triangle) : ℚ :=
  calculatePolygonArea t.vertices

instance (p a b : Point) : Decidable (onSegQ p a b) := by
  unfold onSegQ; infer_instance

instance (p1 p2 p3 p4 : Point) : Decidable (segsMeet p1 p2 p3 p4) := by
  unfold segsMeet; infer_instance

instance (l : List Point) : Decidable (IsSimplePolygon l) := by
  unfold IsSimplePolygon; infer_instance

instance (a b : Point) : Decidable (lexLt a b) := by
  unfold lexLt; infer_instance

instance : IsTotal Point lexLe where
  total a b := by
    unfold lexLe
    rcases lt_trichotomy a.x b.x with h | h | h
    · exact Or.inl (Or.inl h)
    · rcases le_total a.y b.y with hy | hy
      · exact Or.inl (Or.inr ⟨h, hy⟩)
      · exact Or.inr (Or.inr ⟨h.symm, hy⟩)
    · exact Or.inr (Or.inl h)

instance : IsTrans Point lexLe where
  trans a b c hab hbc := by
    unfold lexLe at *
    rcases hab with h | ⟨hx, hy⟩ <;> rcases hbc with h' | ⟨hx', hy'⟩
    · exact Or.inl (h.trans h')
    · exact Or.inl (hx' ▸ h)
    · exact Or.inl (hx ▸ h')
    · exact Or.inr ⟨hx.trans hx', hy.trans hy'⟩

/-- The determinant `a₁b₂ - a₂b₁` computed by `calculateIntersection`
from the two segments' implicit line equations. -/
def segDet (p1 q1 p2 q2 : Point) : ℚ :=
  (q1.y - p1.y) * (p2.x - q2.x) - (q2.y - p2.y) * (p1.x - q1.x)

/-- The Cramer's-rule solution point computed by `calculateIntersection`
(well-defined only when `segDet ≠ 0`). -/
def cramerPoint (p1 q1 p2 q2 : Point) : Point :=
  let a1 := q1.y - p1.y
  let b1 := p1.x - q1.x
  let c1 := a1 * p1.x + b1 * p1.y
  let a2 := q2.y - p2.y
  let b2 := p2.x - q2.x
  let c2 := a2 * p2.x + b2 * p2.y
  let determinant := a1 * b2 - a2 * b1
  ⟨(b2 * c1 - b1 * c2) / determinant, (a1 * c2 - a2 * c1) / determinant⟩

/-- Side condition of the arrangement count property: the two lines have
different slopes and their intersection point lies inside the bounding
window. -/
def arrGood (bounds : Bounds) (line1 line2 : ALine) : Prop :=
  line1.m ≠ line2.m ∧
    (let x := (line2.b - line1.b) / (line1.m - line2.m)
     let y := line1.m * x + line1.b
     0 ≤ x ∧ x ≤ bounds.width ∧ 0 ≤ y ∧ y ≤ bounds.height)

/-- Sum of the adjacent-pair shoelace terms of a (non-cyclic) path. -/
def pathSum (l : List Point) : ℚ :=
  ((adjPairs l).map shoelaceTerm).sum

/-- Point reflection through the origin; exchanges the roles of the
lower and the upper chain (the hull build on the reversed sorted list
is the hull build on the reflected points in sorted order). -/
def negPt (p : Point) : Point := ⟨-p.x, -p.y⟩

/-- All consecutive triples of a vertex walk turn strictly left. -/
def TurnsP : List Point → Prop
  | a :: b :: c :: t => 0 < crossProduct a b c ∧ TurnsP (b :: c :: t)
  | _ => True

/-- Turn property for a chain accumulator stored in reversed order
(most recently pushed point first): reading bottom-up, consecutive
triples turn strictly left. -/
def AccTurns : List Point → Prop
  | c :: b :: a :: t => 0 < crossProduct a b c ∧ AccTurns (b :: a :: t)
  | _ => True

/-- Every point of `P` lies on or to the left of every edge of the
chain accumulator (stored in reversed order; an edge goes from the
lower point `a` to the point `b` pushed after it). -/
def AccAbove (P : List Point) : List Point → Prop
  | b :: a :: t => (∀ q ∈ P, 0 ≤ crossProduct a b q) ∧ AccAbove P (a :: t)
  | _ => True

/-- The turn made by the last two points of a walk and one more point
(trivial when the walk has fewer than two points). -/
def lastTwoTurn (X : List Point) (z : Point) : Prop :=
  match X.dropLast.getLast?, X.getLast? with
  | some a, some b => 0 < crossProduct a b z
  | _, _ => True

theorem crossProduct_def (o a b : Point) :
    crossProduct o a b = (a.x - o.x) * (b.y - o.y) - (a.y - o.y) * (b.x - o.x) := rfl

theorem ccw_def (A B C : Point) :
    ccw A B C = (C.y - A.y) * (B.x - A.x) - (B.y - A.y) * (C.x - A.x) := rfl

theorem sign3_def (p1 p2 p3 : Point) :
    sign3 p1 p2 p3 = (p1.x - p3.x) * (p2.y - p3.y) - (p2.x - p3.x) * (p1.y - p3.y) := rfl

theorem shoelaceTerm_def (ab : Point × Point) :
    shoelaceTerm ab = ab.1.x * ab.2.y - ab.2.x * ab.1.y := rfl

theorem lexLe_def (a b : Point) :
    lexLe a b ↔ a.x < b.x ∨ (a.x = b.x ∧ a.y ≤ b.y) := Iff.rfl

theorem lexLt_def (a b : Point) :
    lexLt a b ↔ a.x < b.x ∨ (a.x = b.x ∧ a.y < b.y) := Iff.rfl

theorem segDet_def (p1 q1 p2 q2 : Point) :
    segDet p1 q1 p2 q2 =
      (q1.y - p1.y) * (p2.x - q2.x) - (q2.y - p2.y) * (p1.x - q1.x) := rfl

theorem crossProduct_swap_head (a b c : Point) :
    crossProduct b a c = -crossProduct a b c := by
  simp only [crossProduct_def]; ring

theorem crossProduct_rev (a b c : Point) :
    crossProduct c b a = -crossProduct a b c := by
  simp only [crossProduct_def]; ring

theorem crossProduct_cyclic (a b c : Point) :
    crossProduct b c a = crossProduct a b c := by
  simp only [crossProduct_def]; ring

theorem crossProduct_self_right (a b : Point) : crossProduct a b b = 0 := by
  simp only [crossProduct_def]; ring

theorem crossProduct_self_left (a b : Point) : crossProduct a a b = 0 := by
  simp only [crossProduct_def]; ring

/-- C10: when either input segment's end point is still unset (the
segment is under construction), `calculateIntersection` returns null
without computing anything. -/
theorem calculateIntersection_unset_end (line1 line2 : Segment)
    (h : line1.stop = none ∨ line2.stop = none) :
    calculateIntersection line1 line2 = none := by
  rcases h with h | h <;>
    cases h1 : line1.stop <;> cases h2 : line2.stop <;>
    simp_all [calculateIntersection]

theorem calculateIntersection_unset_end_witness :
    calculateIntersection ⟨⟨0, 0⟩, none⟩ ⟨⟨0, 1⟩, some ⟨10, 1⟩⟩ = none :=
  calculateIntersection_unset_end ⟨⟨0, 0⟩, none⟩ ⟨⟨0, 1⟩, some ⟨10, 1⟩⟩ (Or.inl rfl)

/-- C3: for fully specified segments, `calculateIntersection` returns
null when the determinant of the two implicit line equations is exactly
zero; otherwise it returns the Cramer's-rule solution point exactly when
that point lies in both segments' inclusive bounding boxes; and on the
crossing segments (0,0)-(10,10) and (0,10)-(10,0) it returns (5,5). -/
theorem calculateIntersection_spec :
    (∀ p1 q1 p2 q2 : Point, segDet p1 q1 p2 q2 = 0 →
      calculateIntersection ⟨p1, some q1⟩ ⟨p2, some q2⟩ = none) ∧
    (∀ p1 q1 p2 q2 : Point, segDet p1 q1 p2 q2 ≠ 0 →
      calculateIntersection ⟨p1, some q1⟩ ⟨p2, some q2⟩ =
        (if isPointOnSegment (cramerPoint p1 q1 p2 q2) p1 q1 ∧
            isPointOnSegment (cramerPoint p1 q1 p2 q2) p2 q2
         then some (cramerPoint p1 q1 p2 q2) else none)) ∧
    calculateIntersection ⟨⟨0, 0⟩, some ⟨10, 10⟩⟩ ⟨⟨0, 10⟩, some ⟨10, 0⟩⟩ =
      some ⟨5, 5⟩ := by
  refine ⟨fun p1 q1 p2 q2 h => ?_, fun p1 q1 p2 q2 h => ?_, ?_⟩
  · simp only [calculateIntersection]
    rw [if_pos (by simpa [segDet_def] using h)]
  · simp only [calculateIntersection, cramerPoint]
    rw [if_neg (by simpa [segDet_def] using h)]
  · norm_num [calculateIntersection, isPointOnSegment]

theorem calculateIntersection_spec_witness :
    calculateIntersection ⟨⟨0, 0⟩, some ⟨10, 0⟩⟩ ⟨⟨0, 1⟩, some ⟨10, 1⟩⟩ = none ∧
    calculateIntersection ⟨⟨0, 0⟩, some ⟨2, 2⟩⟩ ⟨⟨0, 2⟩, some ⟨2, 0⟩⟩ =
      (if isPointOnSegment (cramerPoint ⟨0, 0⟩ ⟨2, 2⟩ ⟨0, 2⟩ ⟨2, 0⟩) ⟨0, 0⟩ ⟨2, 2⟩ ∧
          isPointOnSegment (cramerPoint ⟨0, 0⟩ ⟨2, 2⟩ ⟨0, 2⟩ ⟨2, 0⟩) ⟨0, 2⟩ ⟨2, 0⟩
       then some (cramerPoint ⟨0, 0⟩ ⟨2, 2⟩ ⟨0, 2⟩ ⟨2, 0⟩) else none) :=
  ⟨calculateIntersection_spec.1 ⟨0, 0⟩ ⟨10, 0⟩ ⟨0, 1⟩ ⟨10, 1⟩ (by norm_num [segDet_def]),
   calculateIntersection_spec.2.1 ⟨0, 0⟩ ⟨2, 2⟩ ⟨0, 2⟩ ⟨2, 0⟩ (by norm_num [segDet_def])⟩

theorem pairInter_of_arrGood {bounds : Bounds} {l1 l2 : ALine}
    (h : arrGood bounds l1 l2) : (pairInter bounds l1 l2).isSome := by
  obtain ⟨hm, hb⟩ := h
  simp only [pairInter, if_neg hm]
  rw [if_pos hb]
  rfl

theorem length_filterMap_pairInter {bounds : Bounds} (l : ALine)
    (rest : List ALine) (h : ∀ x ∈ rest, arrGood bounds l x) :
    (rest.filterMap (pairInter bounds l)).length = rest.length := by
  induction rest with
  | nil => rfl
  | cons a t ih =>
    have ha := pairInter_of_arrGood (h a (List.mem_cons_self a t))
    obtain ⟨p, hp⟩ := Option.isSome_iff_exists.mp ha
    simp only [List.filterMap_cons, hp, List.length_cons]
    rw [ih (fun x hx => h x (List.mem_cons_of_mem a hx))]

/-- C4: the arrangement intersection enumeration considers every
unordered pair of lines, skips exactly the pairs with exactly equal
slopes and keeps a point iff it lies in the bounding window (this is the
definition of `pairInter`/`intersections`); consequently when all pairs
have distinct slopes and in-window intersection points — in particular
for 3 mutually non-parallel lines meeting inside the window, and for any
n lines in such general position — it returns exactly n(n-1)/2 points. -/
theorem intersections_general_position_count (bounds : Bounds)
    (lines : List ALine) (h : List.Pairwise (arrGood bounds) lines) :
    (intersections bounds lines).length =
      lines.length * (lines.length - 1) / 2 := by
  rw [← Nat.choose_two_right]
  induction lines with
  | nil => rfl
  | cons l rest ih =>
    rw [List.pairwise_cons] at h
    have hlen := length_filterMap_pairInter l rest h.1
    simp only [intersections, List.length_append, hlen, ih h.2, List.length_cons]
    rw [Nat.choose_succ_succ, Nat.choose_one_right, Nat.add_comm]

theorem intersections_general_position_count_witness :
    (intersections ⟨800, 400⟩ [⟨1, 0⟩, ⟨0, 10⟩, ⟨-1, 30⟩]).length = 3 := by
  have h : List.Pairwise (arrGood ⟨800, 400⟩) [⟨1, 0⟩, ⟨0, 10⟩, ⟨-1, 30⟩] := by
    norm_num [List.pairwise_cons, arrGood]
  simpa using intersections_general_position_count ⟨800, 400⟩
    [⟨1, 0⟩, ⟨0, 10⟩, ⟨-1, 30⟩] h

/-- C5 (failing input): `computeSphericalGeodesic` has no guard for
degenerate inputs.  For coincident start and end points the central
angle is 0, so the interpolation denominator `sin(angle)` is exactly 0
and the code still divides by it for each of the 51 produced path points
(in JavaScript this yields NaN coordinates); the path is never
short-circuited to two points. -/
theorem geodesic_unguarded_degenerate :
    ((computeSphericalGeodesic ⟨150, 0, 0, 0, 0⟩ ⟨150, 0, 0, 0, 0⟩).path.length = 51 ∧
     (computeSphericalGeodesic ⟨150, 0, 0, 0, 0⟩ ⟨150, 0, 0, 0, 0⟩).path.length ≠ 2) ∧
    Real.sin (centralAngle ⟨150, 0, 0, 0, 0⟩ ⟨150, 0, 0, 0, 0⟩) = 0 := by
  have hang : centralAngle ⟨150, 0, 0, 0, 0⟩ ⟨150, 0, 0, 0, 0⟩ = 0 := by
    unfold centralAngle SPHERE_RADIUS
    norm_num [Real.arccos_one]
  refine ⟨⟨?_, by simp [computeSphericalGeodesic]⟩, by rw [hang, Real.sin_zero]⟩
  simp [computeSphericalGeodesic]

/-- C6 (counterexample): the arc length returned by
`computeSphericalGeodesic` is not `R` times the central angle: for the
orthogonal points (150,0,0) and (0,150,0) the central angle is π/2, but
the returned length is scaled by `EARTH_RADIUS / SPHERE_RADIUS` into
kilometres, so it differs from `SPHERE_RADIUS · angle`. -/
theorem geodesic_length_scaled_counterexample :
    (computeSphericalGeodesic ⟨150, 0, 0, 0, 0⟩ ⟨0, 150, 0, 0, 0⟩).length ≠
      SPHERE_RADIUS * centralAngle ⟨150, 0, 0, 0, 0⟩ ⟨0, 150, 0, 0, 0⟩ := by
  have hang : centralAngle ⟨150, 0, 0, 0, 0⟩ ⟨0, 150, 0, 0, 0⟩ = Real.pi / 2 := by
    unfold centralAngle SPHERE_RADIUS
    norm_num [Real.arccos_zero]
  have hlen : (computeSphericalGeodesic ⟨150, 0, 0, 0, 0⟩ ⟨0, 150, 0, 0, 0⟩).length =
      SPHERE_RADIUS * centralAngle ⟨150, 0, 0, 0, 0⟩ ⟨0, 150, 0, 0, 0⟩ *
        (EARTH_RADIUS / SPHERE_RADIUS) := rfl
  rw [hlen, hang]
  unfold SPHERE_RADIUS EARTH_RADIUS
  intro h
  nlinarith [Real.pi_pos]

/-- C6 (amended): for every pair of input points, the geodesic
interpolator returns a path of exactly steps+1 = 51 points, an arc
length of `R · angle` scaled by `EARTH_RADIUS / SPHERE_RADIUS` (the
kilometre conversion), and a chord length equal to the Euclidean
distance between the two Cartesian endpoints scaled by the same factor. -/
theorem computeSphericalGeodesic_spec (s e : Point3D) :
    (computeSphericalGeodesic s e).path.length = 51 ∧
    (computeSphericalGeodesic s e).length =
      EARTH_RADIUS / SPHERE_RADIUS * (SPHERE_RADIUS * centralAngle s e) ∧
    (computeSphericalGeodesic s e).straightDistance =
      EARTH_RADIUS / SPHERE_RADIUS *
        Real.sqrt ((e.x - s.x) ^ 2 + (e.y - s.y) ^ 2 + (e.z - s.z) ^ 2) := by
  refine ⟨by simp [computeSphericalGeodesic], ?_, ?_⟩ <;>
    simp [computeSphericalGeodesic, mul_comm]

theorem findEarIdx_lt {poly : List TVertex} {i : ℕ}
    (h : findEarIdx poly = some i) : i < poly.length :=
  List.mem_range.mp (List.mem_of_find?_eq_some h)

theorem findEarIdx_isEar {poly : List TVertex} {i : ℕ}
    (h : findEarIdx poly = some i) : isEar poly i = true :=
  List.find?_some h

theorem clipLoop_stop (fuel : ℕ) (poly : List TVertex) (acc : List Triangle)
    (h : ¬ 3 < poly.length) : clipLoop fuel poly acc = (acc, poly) := by
  cases fuel with
  | zero => rfl
  | succ f => simp [clipLoop, h]

theorem clipLoop_no_ear (f : ℕ) (poly : List TVertex) (acc : List Triangle)
    (h3 : 3 < poly.length) (hfind : findEarIdx poly = none) :
    clipLoop (f + 1) poly acc = (acc, poly) := by
  simp [clipLoop, h3, hfind]

theorem clipLoop_step (f : ℕ) (poly : List TVertex) (acc : List Triangle) (i : ℕ)
    (h3 : 3 < poly.length) (hfind : findEarIdx poly = some i) :
    clipLoop (f + 1) poly acc =
      clipLoop f (poly.eraseIdx i)
        (acc ++ [⟨[(poly.getD ((i + poly.length - 1) % poly.length) defaultTV).2,
          (poly.getD i defaultTV).2,
          (poly.getD ((i + 1) % poly.length) defaultTV).2]⟩]) := by
  simp [clipLoop, h3, hfind]

/-- C7: the ear-clipping loop terminates on every input.  The unbounded
JavaScript `while` loop is modelled with fuel; the first conjunct shows
any fuel of at least the ring length gives the same result (the loop
stabilises after at most `length` iterations), and the second shows that
when no ear exists the loop stops immediately, returning the triangles
produced so far together with the untouched remaining ring. -/
theorem clipLoop_terminates :
    (∀ (fuel : ℕ) (poly : List TVertex) (acc : List Triangle),
      poly.length ≤ fuel →
      clipLoop fuel poly acc = clipLoop poly.length poly acc) ∧
    (∀ (fuel : ℕ) (poly : List TVertex) (acc : List Triangle),
      3 < poly.length → findEarIdx poly = none → 0 < fuel →
      clipLoop fuel poly acc = (acc, poly)) := by
  constructor
  · intro fuel
    induction fuel with
    | zero =>
      intro poly acc h
      rw [Nat.le_zero.mp (le_trans h (Nat.le_refl 0))]
    | succ f ih =>
      intro poly acc h
      by_cases h3 : 3 < poly.length
      · obtain ⟨l, hl⟩ : ∃ l, poly.length = l + 1 := ⟨poly.length - 1, by omega⟩
        cases hfind : findEarIdx poly with
        | none =>
          have lhs1 : clipLoop (f + 1) poly acc = (acc, poly) := by
            simp [clipLoop, h3, hfind]
          have rhs1 : clipLoop poly.length poly acc = (acc, poly) := by
            rw [hl]; simp [clipLoop, h3, hfind]
          rw [lhs1, rhs1]
        | some i =>
          have hi : i < poly.length := findEarIdx_lt hfind
          have herase : (poly.eraseIdx i).length = l := by
            rw [List.length_eraseIdx, if_pos hi]; omega
          have step1 : clipLoop (f + 1) poly acc =
              clipLoop f (poly.eraseIdx i)
                (acc ++ [⟨[(poly.getD ((i + poly.length - 1) % poly.length) defaultTV).2,
                  (poly.getD i defaultTV).2,
                  (poly.getD ((i + 1) % poly.length) defaultTV).2]⟩]) := by
            simp [clipLoop, h3, hfind]
          rw [step1, ih _ _ (by omega), herase, hl]
          simp [clipLoop, h3, hfind, hl]
          rw [if_pos (show 3 < l + 1 by omega)]
      · rw [clipLoop_stop _ _ _ h3, clipLoop_stop _ _ _ h3]
  · intro fuel poly acc h3 hfind hf
    obtain ⟨f, rfl⟩ : ∃ f, fuel = f + 1 := ⟨fuel - 1, by omega⟩
    simp [clipLoop, h3, hfind]

theorem clipLoop_terminates_witness :
    (let cw : List TVertex := ([⟨0, 0⟩, ⟨0, 1⟩, ⟨1, 1⟩, ⟨1, 0⟩] : List Point).enum
     clipLoop 7 cw [] = clipLoop 4 cw []) ∧
    (let cw : List TVertex := ([⟨0, 0⟩, ⟨0, 1⟩, ⟨1, 1⟩, ⟨1, 0⟩] : List Point).enum
     clipLoop 9 cw [] = ([], cw)) := by
  have hfind : findEarIdx (([⟨0, 0⟩, ⟨0, 1⟩, ⟨1, 1⟩, ⟨1, 0⟩] : List Point).enum) = none := by
    norm_num [findEarIdx, List.range_succ, isEar, crossProduct_def]
  exact ⟨clipLoop_terminates.1 7 _ [] (by norm_num),
    clipLoop_terminates.2 9 _ [] (by norm_num) hfind (by norm_num)⟩

theorem adjPairs_append {α : Type} (X Y : List α) (hX : X ≠ []) (hY : Y ≠ []) :
    adjPairs (X ++ Y) = adjPairs X ++ (X.getLast hX, Y.head hY) :: adjPairs Y := by
  induction X with
  | nil => exact absurd rfl hX
  | cons a X' ih =>
    cases X' with
    | nil =>
      cases Y with
      | nil => exact absurd rfl hY
      | cons c t => simp [adjPairs]
    | cons b X'' =>
      have h2 : (b :: X'') ≠ [] := by simp
      have : ((a :: b :: X'') ++ Y) = a :: ((b :: X'') ++ Y) := by simp
      rw [this]
      have hcons : adjPairs (a :: ((b :: X'') ++ Y)) =
          (a, b) :: adjPairs ((b :: X'') ++ Y) := rfl
      rw [hcons, ih h2]
      simp [adjPairs, List.getLast_cons h2]

theorem headD_eq_getElem (l : List Point) (h : 0 < l.length) :
    l.headD originPt = l[0] := by
  rw [List.headD_eq_head?, List.head?_eq_head (List.ne_nil_of_length_pos h),
    Option.getD_some, List.head_eq_getElem]

theorem getLastD_eq_getElem (l : List Point) (h : 0 < l.length) :
    l.getLastD originPt = l[l.length - 1] := by
  rw [List.getLastD_eq_getLast?,
    List.getLast?_eq_getLast l (List.ne_nil_of_length_pos h),
    Option.getD_some, List.getLast_eq_getElem]

theorem shoelace2_decomp (A B : List Point) (c : Point) (hAB : A ++ B ≠ []) :
    shoelace2 (A ++ c :: B) =
      crossProduct ((B ++ A).getLastD originPt) c ((B ++ A).headD originPt) +
        shoelace2 (A ++ B) := by
  rcases A with _ | ⟨a, A'⟩
  · rcases B with _ | ⟨b, B'⟩
    · exact absurd rfl hAB
    · have hY : ([c] : List Point) ≠ [] := by simp
      have hX : (b :: B') ≠ [] := by simp
      have hcyc : (([] ++ c :: b :: B') ++ (([] : List Point) ++ c :: b :: B').take 1) =
          c :: ((b :: B') ++ [c]) := by simp
      have hcyc2 : (([] ++ b :: B') ++ (([] : List Point) ++ b :: B').take 1) =
          (b :: B') ++ [b] := by simp
      unfold shoelace2 cyclicPairs
      rw [hcyc, hcyc2]
      have e1 : adjPairs (c :: ((b :: B') ++ [c])) =
          (c, b) :: adjPairs ((b :: B') ++ [c]) := rfl
      rw [e1, adjPairs_append _ _ hX hY, adjPairs_append _ _ hX (by simp)]
      simp only [List.map_cons, List.map_append, List.sum_cons, List.sum_append,
        List.append_nil, adjPairs, List.map_nil, List.sum_nil]
      rw [getLastD_eq_getElem _ (by simp), headD_eq_getElem _ (by simp)]
      simp only [List.getLast_eq_getElem, List.head_eq_getElem]
      simp [shoelaceTerm_def, crossProduct_def]
      ring
  · rcases B with _ | ⟨b, B'⟩
    · have hX : (a :: A') ≠ [] := by simp
      have hcyc : (((a :: A') ++ c :: []) ++ ((a :: A') ++ c :: []).take 1) =
          (a :: A') ++ [c, a] := by simp
      have hcyc2 : (((a :: A') ++ []) ++ ((a :: A') ++ ([] : List Point)).take 1) =
          (a :: A') ++ [a] := by simp
      unfold shoelace2 cyclicPairs
      rw [hcyc, hcyc2]
      rw [adjPairs_append _ _ hX (show ([c, a] : List Point) ≠ [] by simp),
        adjPairs_append _ _ hX (show ([a] : List Point) ≠ [] by simp)]
      simp only [List.map_append, List.sum_append, adjPairs, List.map_cons,
        List.sum_cons, List.map_nil, List.sum_nil, List.append_nil]
      rw [getLastD_eq_getElem _ (by simp), headD_eq_getElem _ (by simp)]
      simp only [List.getLast_eq_getElem, List.head_eq_getElem]
      simp [shoelaceTerm_def, crossProduct_def]
      ring
    · have hXa : (a :: A') ≠ [] := by simp
      have hXb : (b :: B') ≠ [] := by simp
      have hcyc : (((a :: A') ++ c :: b :: B') ++ ((a :: A') ++ c :: b :: B').take 1) =
          (a :: A') ++ (c :: ((b :: B') ++ [a])) := by simp
      have hcyc2 : (((a :: A') ++ b :: B') ++ ((a :: A') ++ b :: B').take 1) =
          (a :: A') ++ ((b :: B') ++ [a]) := by simp
      unfold shoelace2 cyclicPairs
      rw [hcyc, hcyc2]
      have hba : (b :: B') ++ [a] ≠ [] := by simp
      rw [adjPairs_append (a :: A') _ hXa (by simp),
        adjPairs_append (a :: A') _ hXa hba]
      have e1 : adjPairs (c :: ((b :: B') ++ [a])) =
          (c, b) :: adjPairs ((b :: B') ++ [a]) := rfl
      rw [e1, adjPairs_append _ _ hXb (by simp)]
      have hhead : ((b :: B') ++ [a]).head hba = b := rfl
      rw [hhead]
      simp only [List.map_append, List.sum_append, List.map_cons, List.sum_cons,
        adjPairs, List.map_nil, List.sum_nil]
      have hlast : ((b :: B') ++ (a :: A')).getLastD originPt =
          (a :: A').getLast hXa := by
        rw [List.getLastD_eq_getLast?, List.getLast?_eq_getLast _ (by simp),
          Option.getD_some]
        rw [List.getLast_append]
        simp
      have hheadBA : ((b :: B') ++ (a :: A')).headD originPt = b := rfl
      rw [hlast, hheadBA]
      simp only [List.getLast_eq_getElem, List.head_eq_getElem]
      simp [shoelaceTerm_def, crossProduct_def]
      ring

theorem getLastD_append_right (X Y : List Point) (hY : Y ≠ []) :
    (X ++ Y).getLastD originPt = Y.getLastD originPt := by
  rw [List.getLastD_eq_getLast?, List.getLastD_eq_getLast?,
    List.getLast?_append_of_ne_nil X hY]

theorem headD_append_left (X Y : List Point) (hX : X ≠ []) :
    (X ++ Y).headD originPt = X.headD originPt := by
  rw [List.headD_eq_head?, List.headD_eq_head?, List.head?_append_of_ne_nil X hX]

theorem shoelace2_eraseIdx (P : List Point) (i : ℕ) (hi : i < P.length)
    (h2 : 2 ≤ P.length) :
    shoelace2 P =
      crossProduct (P.getD ((i + P.length - 1) % P.length) originPt)
        (P.getD i originPt) (P.getD ((i + 1) % P.length) originPt) +
      shoelace2 (P.eraseIdx i) := by
  have hP : P = P.take i ++ P[i] :: P.drop (i + 1) := by
    conv_lhs => rw [← List.take_append_drop i P]
    rw [List.drop_eq_getElem_cons hi]
  have hAlen : (P.take i).length = i := by
    rw [List.length_take]; omega
  have hBlen : (P.drop (i + 1)).length = P.length - (i + 1) := List.length_drop _ _
  have hAB : P.take i ++ P.drop (i + 1) ≠ [] := by
    apply List.ne_nil_of_length_pos
    rw [List.length_append, hAlen, hBlen]; omega
  have hErase : P.eraseIdx i = P.take i ++ P.drop (i + 1) :=
    List.eraseIdx_eq_take_drop_succ P i
  have hci : P.getD i originPt = P[i] := List.getD_eq_getElem P originPt hi
  have hprev : (P.drop (i + 1) ++ P.take i).getLastD originPt =
      P.getD ((i + P.length - 1) % P.length) originPt := by
    rcases Nat.eq_zero_or_pos i with hiz | hipos
    · subst hiz
      have hBne : P.drop 1 ≠ [] := by
        apply List.ne_nil_of_length_pos
        rw [List.length_drop]; omega
      have hidx : (0 + P.length - 1) % P.length = P.length - 1 := by
        rw [Nat.zero_add]; exact Nat.mod_eq_of_lt (by omega)
      rw [hidx, List.take_zero, List.append_nil,
        getLastD_eq_getElem _ (by rw [List.length_drop]; omega),
        List.getD_eq_getElem P originPt (show P.length - 1 < P.length by omega)]
      rw [List.getElem_drop]
      congr 1
      rw [List.length_drop]
      omega
    · have hAne : P.take i ≠ [] := by
        apply List.ne_nil_of_length_pos; omega
      have hidx : (i + P.length - 1) % P.length = i - 1 := by
        have h1 : i + P.length - 1 = (i - 1) + P.length := by omega
        rw [h1, Nat.add_mod_right, Nat.mod_eq_of_lt (by omega)]
      rw [hidx, getLastD_append_right _ _ hAne,
        getLastD_eq_getElem _ (by omega),
        List.getD_eq_getElem P originPt (show i - 1 < P.length by omega)]
      rw [List.getElem_take]
      congr 1
      rw [hAlen]
  have hnext : (P.drop (i + 1) ++ P.take i).headD originPt =
      P.getD ((i + 1) % P.length) originPt := by
    rcases Nat.lt_or_ge (i + 1) P.length with hlt | hge
    · have hBne : P.drop (i + 1) ≠ [] := by
        apply List.ne_nil_of_length_pos
        rw [List.length_drop]; omega
      have hidx : (i + 1) % P.length = i + 1 := Nat.mod_eq_of_lt hlt
      rw [hidx, headD_append_left _ _ hBne,
        headD_eq_getElem _ (by rw [List.length_drop]; omega),
        List.getD_eq_getElem P originPt hlt]
      rw [List.getElem_drop]
    · have hieq : i = P.length - 1 := by omega
      have hB : P.drop (i + 1) = [] := by
        apply List.eq_nil_of_length_eq_zero
        rw [List.length_drop]; omega
      have hAne : P.take i ≠ [] := by
        apply List.ne_nil_of_length_pos; omega
      have hidx : (i + 1) % P.length = 0 := by
        have : i + 1 = P.length := by omega
        rw [this, Nat.mod_self]
      rw [hidx, hB, List.nil_append,
        headD_eq_getElem _ (by omega),
        List.getD_eq_getElem P originPt (show 0 < P.length by omega)]
      rw [List.getElem_take]
  calc shoelace2 P = shoelace2 (P.take i ++ P[i] :: P.drop (i + 1)) := by rw [← hP]
    _ = crossProduct ((P.drop (i + 1) ++ P.take i).getLastD originPt) P[i]
          ((P.drop (i + 1) ++ P.take i).headD originPt) +
        shoelace2 (P.take i ++ P.drop (i + 1)) := shoelace2_decomp _ _ _ hAB
    _ = crossProduct (P.getD ((i + P.length - 1) % P.length) originPt)
          (P.getD i originPt) (P.getD ((i + 1) % P.length) originPt) +
        shoelace2 (P.eraseIdx i) := by rw [hprev, hnext, hci, hErase]

theorem isEar_cross_pos {poly : List TVertex} {i : ℕ} (h : isEar poly i = true) :
    0 < crossProduct (poly.getD ((i + poly.length - 1) % poly.length) defaultTV).2
      (poly.getD i defaultTV).2 (poly.getD ((i + 1) % poly.length) defaultTV).2 := by
  by_contra hc
  push_neg at hc
  simp only [isEar] at h
  rw [if_pos hc] at h
  exact Bool.false_ne_true h

theorem shoelace2_triple (a b c : Point) :
    shoelace2 [a, b, c] = crossProduct a b c := by
  simp [shoelace2, cyclicPairs, adjPairs, shoelaceTerm_def, crossProduct_def]
  ring

theorem map_snd_eraseIdx (poly : List TVertex) (i : ℕ) :
    (poly.eraseIdx i).map Prod.snd = (poly.map Prod.snd).eraseIdx i := by
  rw [List.eraseIdx_eq_take_drop_succ, List.eraseIdx_eq_take_drop_succ,
    List.map_append, List.map_take, List.map_drop]

theorem getD_map_snd (poly : List TVertex) (j : ℕ) :
    (poly.map Prod.snd).getD j originPt = (poly.getD j defaultTV).2 :=
  List.getD_map poly defaultTV Prod.snd

theorem clipLoop_invariant (fuel : ℕ) :
    ∀ (poly : List TVertex) (acc : List Triangle),
      (clipLoop fuel poly acc).1.length + (clipLoop fuel poly acc).2.length =
        acc.length + poly.length ∧
      (3 ≤ poly.length → 3 ≤ (clipLoop fuel poly acc).2.length) ∧
      (((clipLoop fuel poly acc).1.map triCross).sum +
          shoelace2 ((clipLoop fuel poly acc).2.map Prod.snd) =
        (acc.map triCross).sum + shoelace2 (poly.map Prod.snd)) ∧
      (∀ t ∈ (clipLoop fuel poly acc).1, t ∈ acc ∨
        ∃ a b c : Point, t.vertices = [a, b, c] ∧ 0 < crossProduct a b c) := by
  induction fuel with
  | zero =>
    intro poly acc
    exact ⟨rfl, fun h => h, rfl, fun t ht => Or.inl ht⟩
  | succ f ih =>
    intro poly acc
    by_cases h3 : 3 < poly.length
    · cases hfind : findEarIdx poly with
      | none =>
        have hres : clipLoop (f + 1) poly acc = (acc, poly) := by
          simp [clipLoop, h3, hfind]
        rw [hres]
        exact ⟨rfl, fun h => h, rfl, fun t ht => Or.inl ht⟩
      | some i =>
        have hi : i < poly.length := findEarIdx_lt hfind
        have hstep : clipLoop (f + 1) poly acc =
            clipLoop f (poly.eraseIdx i)
              (acc ++ [⟨[(poly.getD ((i + poly.length - 1) % poly.length) defaultTV).2,
                (poly.getD i defaultTV).2,
                (poly.getD ((i + 1) % poly.length) defaultTV).2]⟩]) := by
          simp [clipLoop, h3, hfind]
        have herase : (poly.eraseIdx i).length = poly.length - 1 := by
          rw [List.length_eraseIdx, if_pos hi]
        obtain ⟨iha, ihb, ihc, ihd⟩ := ih (poly.eraseIdx i)
          (acc ++ [⟨[(poly.getD ((i + poly.length - 1) % poly.length) defaultTV).2,
            (poly.getD i defaultTV).2,
            (poly.getD ((i + 1) % poly.length) defaultTV).2]⟩])
        have hclip : shoelace2 (poly.map Prod.snd) =
            crossProduct (poly.getD ((i + poly.length - 1) % poly.length) defaultTV).2
              (poly.getD i defaultTV).2
              (poly.getD ((i + 1) % poly.length) defaultTV).2 +
            shoelace2 ((poly.eraseIdx i).map Prod.snd) := by

          have h' := shoelace2_eraseIdx (poly.map Prod.snd) i
            (by simpa using hi) (by simp; omega)
          simp only [List.length_map] at h'
          rw [getD_map_snd, getD_map_snd, getD_map_snd] at h'
          rw [map_snd_eraseIdx]
          exact h'
        rw [hstep]
        refine ⟨?_, ?_, ?_, ?_⟩
        · rw [iha, List.length_append, herase]
          simp
          omega
        · intro _
          apply ihb
          omega
        · rw [ihc, List.map_append, List.sum_append, hclip]
          simp [triCross]
          ring
        · intro t ht
          rcases ihd t ht with hin | hnew
          · rcases List.mem_append.mp hin with hin' | hin'
            · exact Or.inl hin'
            · right
              rw [List.mem_singleton.mp hin']
              exact ⟨_, _, _, rfl, isEar_cross_pos (findEarIdx_isEar hfind)⟩
          · exact Or.inr hnew
    · rw [clipLoop_stop _ _ _ h3]
      exact ⟨rfl, fun h => h, rfl, fun t ht => Or.inl ht⟩

theorem triArea_of_vertices {t : Triangle} {a b c : Point}
    (h : t.vertices = [a, b, c]) : triArea t = |triCross t| / 2 := by
  unfold triArea calculatePolygonArea triCross
  rw [h]
  simp [shoelace2_triple]

/-- C1 (amended): for every polygon with at least 3 vertices the
triangulator returns at most n-2 triangles; whenever it does return
exactly n-2 triangles and every returned triangle is counter-clockwise
(nonnegative doubled signed area — automatic for the clipped ears, a
hypothesis only for the final triangle), the sum of the triangles'
areas equals the polygon's shoelace area, exactly. -/
theorem earClip_count_and_area (polygon : List Point) (h3 : 3 ≤ polygon.length) :
    (earClipTriangulation polygon).length ≤ polygon.length - 2 ∧
    ((earClipTriangulation polygon).length = polygon.length - 2 →
      (∀ t ∈ earClipTriangulation polygon, 0 ≤ triCross t) →
      ((earClipTriangulation polygon).map triArea).sum = calculatePolygonArea polygon) := by
  have hnlt : ¬ polygon.length < 3 := by omega
  obtain ⟨ha, hb, hc, hd⟩ := clipLoop_invariant polygon.length polygon.enum []
  rw [List.enum_length] at hb ha
  have henum : (polygon.enum.map Prod.snd) = polygon := List.enum_map_snd polygon
  rw [henum] at hc
  simp only [List.length_nil, List.map_nil, List.sum_nil, Nat.zero_add, zero_add] at ha hc
  have hb3 := hb h3
  by_cases hres : (clipLoop polygon.length polygon.enum []).2.length = 3
  · have hcount : (earClipTriangulation polygon).length = polygon.length - 2 := by
      unfold earClipTriangulation
      rw [if_neg hnlt]
      rw [if_pos hres]
      rw [List.length_append]
      simp
      omega
    refine ⟨le_of_eq hcount, fun _ hpos => ?_⟩
    obtain ⟨a, b, c, habc⟩ := List.length_eq_three.mp (by simpa using hres)
    have hsplit : earClipTriangulation polygon =
        (clipLoop polygon.length polygon.enum []).1 ++
          [⟨(clipLoop polygon.length polygon.enum []).2.map Prod.snd⟩] := by
      unfold earClipTriangulation
      rw [if_neg hnlt]
      rw [if_pos hres]
    have hfin : (⟨(clipLoop polygon.length polygon.enum []).2.map Prod.snd⟩ : Triangle).vertices =
        [a.2, b.2, c.2] := by
      simp [habc]
    have hsumcross : ((earClipTriangulation polygon).map triCross).sum = shoelace2 polygon := by
      rw [hsplit, List.map_append, List.sum_append]
      simp only [List.map_cons, List.map_nil, List.sum_cons, List.sum_nil, add_zero]
      have : triCross ⟨(clipLoop polygon.length polygon.enum []).2.map Prod.snd⟩ =
          shoelace2 ((clipLoop polygon.length polygon.enum []).2.map Prod.snd) := by
        rw [habc]
        simp only [List.map_cons, List.map_nil]
        rw [shoelace2_triple]
        rfl
      rw [this]
      exact hc
    have hvert : ∀ t ∈ earClipTriangulation polygon,
        ∃ u v w : Point, t.vertices = [u, v, w] := by
      intro t ht
      rw [hsplit] at ht
      rcases List.mem_append.mp ht with ht' | ht'
      · rcases hd t ht' with hin | ⟨u, v, w, huvw, _⟩
        · exact absurd hin (List.not_mem_nil t)
        · exact ⟨u, v, w, huvw⟩
      · rw [List.mem_singleton.mp ht']
        exact ⟨a.2, b.2, c.2, hfin⟩
    have hptw : ∀ t ∈ earClipTriangulation polygon, triArea t = triCross t / 2 := by
      intro t ht
      obtain ⟨u, v, w, huvw⟩ := hvert t ht
      rw [triArea_of_vertices huvw, abs_of_nonneg (hpos t ht)]
    have hshne : 0 ≤ shoelace2 polygon := by
      rw [← hsumcross]
      apply List.sum_nonneg
      intro x hx
      rcases List.mem_map.mp hx with ⟨t, ht, rfl⟩
      exact hpos t ht
    rw [List.map_congr_left hptw]
    unfold calculatePolygonArea
    rw [if_neg hnlt, abs_of_nonneg hshne, ← hsumcross]
    simp only [div_eq_mul_inv]
    rw [List.sum_map_mul_right]
  · have hge4 : 4 ≤ (clipLoop polygon.length polygon.enum []).2.length := by omega
    have hresult : earClipTriangulation polygon =
        (clipLoop polygon.length polygon.enum []).1 := by
      unfold earClipTriangulation
      rw [if_neg hnlt]
      rw [if_neg hres]
    rw [hresult]
    constructor
    · omega
    · intro hcount _
      omega

set_option maxHeartbeats 1000000 in
theorem findEarIdx_cw_square :
    findEarIdx [(0, (⟨0, 0⟩ : Point)), (1, ⟨0, 1⟩), (2, ⟨1, 1⟩), (3, ⟨1, 0⟩)] = none := by
  norm_num [findEarIdx, List.range_succ, isEar, crossProduct_def]

set_option maxHeartbeats 1000000 in
theorem findEarIdx_ccw_square :
    findEarIdx [(0, (⟨0, 0⟩ : Point)), (1, ⟨1, 0⟩), (2, ⟨1, 1⟩), (3, ⟨0, 1⟩)] = some 0 := by
  norm_num [findEarIdx, List.range_succ, isEar, crossProduct_def, isValidDiagonal,
    doSegmentsIntersect, ccw_def, pointInTriangle, sign3_def]

theorem earClip_ccw_square_eval :
    earClipTriangulation [⟨0, 0⟩, ⟨1, 0⟩, ⟨1, 1⟩, ⟨0, 1⟩] =
      [⟨[⟨0, 1⟩, ⟨0, 0⟩, ⟨1, 0⟩]⟩, ⟨[⟨1, 0⟩, ⟨1, 1⟩, ⟨0, 1⟩]⟩] := by
  have henum : ([⟨0, 0⟩, ⟨1, 0⟩, ⟨1, 1⟩, ⟨0, 1⟩] : List Point).enum =
      [(0, ⟨0, 0⟩), (1, ⟨1, 0⟩), (2, ⟨1, 1⟩), (3, ⟨0, 1⟩)] := rfl
  have hstep1 : clipLoop 4 [(0, (⟨0, 0⟩ : Point)), (1, ⟨1, 0⟩), (2, ⟨1, 1⟩), (3, ⟨0, 1⟩)] [] =
      clipLoop 3 [(1, ⟨1, 0⟩), (2, ⟨1, 1⟩), (3, ⟨0, 1⟩)] [⟨[⟨0, 1⟩, ⟨0, 0⟩, ⟨1, 0⟩]⟩] := by
    rw [clipLoop_step 3 _ _ 0 (by norm_num) findEarIdx_ccw_square]
    rfl
  have hstep2 : clipLoop 3 [(1, (⟨1, 0⟩ : Point)), (2, ⟨1, 1⟩), (3, ⟨0, 1⟩)]
        [⟨[⟨0, 1⟩, ⟨0, 0⟩, ⟨1, 0⟩]⟩] =
      ([⟨[⟨0, 1⟩, ⟨0, 0⟩, ⟨1, 0⟩]⟩], [(1, ⟨1, 0⟩), (2, ⟨1, 1⟩), (3, ⟨0, 1⟩)]) :=
    clipLoop_stop 3 _ _ (by norm_num)
  unfold earClipTriangulation
  rw [if_neg (by norm_num : ¬ ([⟨0, 0⟩, ⟨1, 0⟩, ⟨1, 1⟩, ⟨0, 1⟩] : List Point).length < 3)]
  have hlen : ([⟨0, 0⟩, ⟨1, 0⟩, ⟨1, 1⟩, ⟨0, 1⟩] : List Point).length = 4 := rfl
  rw [hlen, henum, hstep1, hstep2]
  norm_num

set_option maxHeartbeats 1600000 in
/-- C1 (counterexample): the clockwise square is a simple polygon with 4
vertices, yet `earClipTriangulation` returns 0 triangles, not n-2 = 2:
the ear test demands a strictly counter-clockwise corner, and every
corner of this clockwise square turns clockwise, so no ear is found on
it and the defensive loop exit truncates the output. -/
theorem earClip_cw_square_truncates :
    IsSimplePolygon [⟨0, 0⟩, ⟨0, 1⟩, ⟨1, 1⟩, ⟨1, 0⟩] ∧
    ([⟨0, 0⟩, ⟨0, 1⟩, ⟨1, 1⟩, ⟨1, 0⟩] : List Point).length = 4 ∧
    (earClipTriangulation [⟨0, 0⟩, ⟨0, 1⟩, ⟨1, 1⟩, ⟨1, 0⟩]).length = 0 := by
  refine ⟨⟨by norm_num, by norm_num [Point.mk.injEq], ?_⟩, rfl, ?_⟩
  · norm_num [List.range_succ, segsMeet, onSegQ, crossProduct_def]
  · have henum : ([⟨0, 0⟩, ⟨0, 1⟩, ⟨1, 1⟩, ⟨1, 0⟩] : List Point).enum =
        [(0, ⟨0, 0⟩), (1, ⟨0, 1⟩), (2, ⟨1, 1⟩), (3, ⟨1, 0⟩)] := rfl
    have hloop : clipLoop 4 [(0, (⟨0, 0⟩ : Point)), (1, ⟨0, 1⟩), (2, ⟨1, 1⟩), (3, ⟨1, 0⟩)] [] =
        ([], [(0, ⟨0, 0⟩), (1, ⟨0, 1⟩), (2, ⟨1, 1⟩), (3, ⟨1, 0⟩)]) :=
      clipLoop_no_ear 3 _ _ (by norm_num) findEarIdx_cw_square
    unfold earClipTriangulation
    rw [if_neg (by norm_num : ¬ ([⟨0, 0⟩, ⟨0, 1⟩, ⟨1, 1⟩, ⟨1, 0⟩] : List Point).length < 3)]
    have hlen : ([⟨0, 0⟩, ⟨0, 1⟩, ⟨1, 1⟩, ⟨1, 0⟩] : List Point).length = 4 := rfl
    rw [hlen, henum, hloop]
    norm_num

theorem earClip_count_and_area_witness :
    3 ≤ ([⟨0, 0⟩, ⟨1, 0⟩, ⟨1, 1⟩, ⟨0, 1⟩] : List Point).length ∧
    ((earClipTriangulation [⟨0, 0⟩, ⟨1, 0⟩, ⟨1, 1⟩, ⟨0, 1⟩]).map triArea).sum =
      calculatePolygonArea [⟨0, 0⟩, ⟨1, 0⟩, ⟨1, 1⟩, ⟨0, 1⟩] := by
  refine ⟨by norm_num, ?_⟩
  refine (earClip_count_and_area [⟨0, 0⟩, ⟨1, 0⟩, ⟨1, 1⟩, ⟨0, 1⟩] (by norm_num)).2 ?_ ?_
  · rw [earClip_ccw_square_eval]
    rfl
  · intro t ht
    rw [earClip_ccw_square_eval] at ht
    rcases List.mem_cons.mp ht with rfl | ht
    · norm_num [triCross, crossProduct_def]
    · rcases List.mem_singleton.mp ht with rfl
      norm_num [triCross, crossProduct_def]

theorem perm_pair_cases {α : Type} {y z b c : α} (h : ([y, z] : List α).Perm [b, c]) :
    (y = b ∧ z = c) ∨ (y = c ∧ z = b) := by
  have hy : y ∈ [b, c] := h.mem_iff.mp (by simp)
  rcases List.mem_cons.mp hy with rfl | hy'
  · left
    refine ⟨rfl, ?_⟩
    have h' := h.cons_inv
    rw [List.singleton_perm] at h'
    exact (List.cons.injEq _ _ _ _).mp h'.symm |>.1.symm
  · right
    have hyc : y = c := by simpa using hy'
    refine ⟨hyc, ?_⟩
    have h2 : ([y, z] : List α).Perm [c, b] := h.trans (List.Perm.swap c b [])
    rw [hyc] at h2
    have h' := h2.cons_inv
    rw [List.singleton_perm] at h'
    exact (List.cons.injEq _ _ _ _).mp h'.symm |>.1.symm

theorem perm_three_cases {α : Type} {l : List α} {a b c : α} (h : l.Perm [a, b, c]) :
    l = [a, b, c] ∨ l = [a, c, b] ∨ l = [b, a, c] ∨ l = [b, c, a] ∨
      l = [c, a, b] ∨ l = [c, b, a] := by
  have hlen : l.length = 3 := by rw [h.length_eq]; rfl
  obtain ⟨x, y, z, rfl⟩ := List.length_eq_three.mp hlen
  have hx : x ∈ [a, b, c] := h.mem_iff.mp (by simp)
  rcases List.mem_cons.mp hx with rfl | hx'
  · have hyz := h.cons_inv
    rcases perm_pair_cases hyz with ⟨rfl, rfl⟩ | ⟨rfl, rfl⟩
    · exact Or.inl rfl
    · exact Or.inr (Or.inl rfl)
  · rcases List.mem_cons.mp hx' with rfl | hx''
    · have hswap : ([a, x, c] : List α).Perm [x, a, c] := List.Perm.swap x a [c]
      have hyz := (h.trans hswap).cons_inv
      rcases perm_pair_cases hyz with ⟨rfl, rfl⟩ | ⟨rfl, rfl⟩
      · exact Or.inr (Or.inr (Or.inl rfl))
      · exact Or.inr (Or.inr (Or.inr (Or.inl rfl)))
    · have hxc : x = c := by simpa using hx''
      subst hxc
      have hs1 : ([a, b, x] : List α).Perm [a, x, b] :=
        List.Perm.cons a (List.Perm.swap x b [])
      have hs2 : ([a, x, b] : List α).Perm [x, a, b] := List.Perm.swap x a [b]
      have hyz := (h.trans (hs1.trans hs2)).cons_inv
      rcases perm_pair_cases hyz with ⟨rfl, rfl⟩ | ⟨rfl, rfl⟩
      · exact Or.inr (Or.inr (Or.inr (Or.inr (Or.inl rfl))))
      · exact Or.inr (Or.inr (Or.inr (Or.inr (Or.inr rfl))))

theorem crossProduct_perm_three {p q r s0 s1 s2 : Point}
    (h : ([s0, s1, s2] : List Point).Perm [p, q, r]) :
    crossProduct s0 s1 s2 = crossProduct p q r ∨
      crossProduct s0 s1 s2 = -crossProduct p q r := by
  rcases perm_three_cases h with h1 | h1 | h1 | h1 | h1 | h1 <;>
    obtain ⟨rfl, rfl, rfl⟩ : _ ∧ _ ∧ _ := by simpa using h1
  · exact Or.inl rfl
  · exact Or.inr (by simp only [crossProduct_def]; ring)
  · exact Or.inr (by simp only [crossProduct_def]; ring)
  · exact Or.inl (by simp only [crossProduct_def]; ring)
  · exact Or.inl (by simp only [crossProduct_def]; ring)
  · exact Or.inr (by simp only [crossProduct_def]; ring)

theorem chainOf_three (s0 s1 s2 : Point) :
    chainOf [s0, s1, s2] =
      if crossProduct s0 s1 s2 ≤ 0 then [s0, s2] else [s0, s1, s2] := by
  by_cases h : crossProduct s0 s1 s2 ≤ 0 <;>
    simp [chainOf, hullStep, popBad, h]

theorem calculateConvexHull_three (p q r : Point) (hnc : crossProduct p q r ≠ 0) :
    (calculateConvexHull [p, q, r]).Perm [p, q, r] := by
  unfold calculateConvexHull
  rw [if_neg (by norm_num)]
  have hperm : (List.insertionSort lexLe [p, q, r]).Perm [p, q, r] :=
    List.perm_insertionSort _ _
  have hlen : (List.insertionSort lexLe [p, q, r]).length = 3 := by
    rw [hperm.length_eq]; rfl
  obtain ⟨s0, s1, s2, hS3⟩ := List.length_eq_three.mp hlen
  rw [hS3]
  rw [hS3] at hperm
  have hc : crossProduct s0 s1 s2 ≠ 0 := by
    rcases crossProduct_perm_three hperm with he | he <;> rw [he] <;>
      simpa using hnc
  have hrev : ([s0, s1, s2] : List Point).reverse = [s2, s1, s0] := rfl
  show ((chainOf [s0, s1, s2]).dropLast ++
    (chainOf ([s0, s1, s2] : List Point).reverse).dropLast).Perm [p, q, r]
  rw [hrev, chainOf_three, chainOf_three]
  have hcrev : crossProduct s2 s1 s0 = -crossProduct s0 s1 s2 := by
    simp only [crossProduct_def]; ring
  rcases lt_or_gt_of_ne hc with hneg | hpos
  · rw [if_pos (le_of_lt hneg), if_neg (by rw [hcrev]; linarith)]
    refine List.Perm.trans ?_ hperm
    exact List.Perm.cons s0 (List.Perm.swap s1 s2 [])
  · rw [if_neg (by linarith), if_pos (by rw [hcrev]; linarith)]
    exact hperm

/-- C8 (counterexample): `calculateConvexHull` does not return 3 input
points unchanged; it sorts them, so the hull of [(1,0),(0,0),(0,1)] is
[(0,0),(1,0),(0,1)], a different list. -/
theorem convexHull_three_reordered :
    calculateConvexHull [⟨1, 0⟩, ⟨0, 0⟩, ⟨0, 1⟩] = [⟨0, 0⟩, ⟨1, 0⟩, ⟨0, 1⟩] ∧
    ([⟨0, 0⟩, ⟨1, 0⟩, ⟨0, 1⟩] : List Point) ≠ [⟨1, 0⟩, ⟨0, 0⟩, ⟨0, 1⟩] := by
  constructor
  · norm_num [calculateConvexHull, List.insertionSort, List.orderedInsert,
      lexLe_def, chainOf, hullStep, popBad, crossProduct_def]
  · intro h
    have := (List.cons.injEq _ _ _ _).mp h
    simp [Point.mk.injEq] at this

/-- C8 (amended): called with exactly 3 points, `earClipTriangulation`
returns exactly one triangle consisting of those 3 points in order, and
`calculateConvexHull` on 3 non-collinear points returns the same 3
points as a set — but reordered (counter-clockwise starting at the
lexicographic minimum), not unchanged. -/
theorem three_point_boundary_spec :
    (∀ p q r : Point, earClipTriangulation [p, q, r] = [⟨[p, q, r]⟩]) ∧
    (∀ p q r : Point, crossProduct p q r ≠ 0 →
      (calculateConvexHull [p, q, r]).Perm [p, q, r]) := by
  constructor
  · intro p q r
    rfl
  · exact calculateConvexHull_three

theorem three_point_boundary_spec_witness :
    earClipTriangulation [⟨5, 7⟩, ⟨1, 0⟩, ⟨2, 3⟩] = [⟨[⟨5, 7⟩, ⟨1, 0⟩, ⟨2, 3⟩]⟩] ∧
    (calculateConvexHull [⟨1, 0⟩, ⟨0, 0⟩, ⟨0, 1⟩]).Perm [⟨1, 0⟩, ⟨0, 0⟩, ⟨0, 1⟩] :=
  ⟨three_point_boundary_spec.1 ⟨5, 7⟩ ⟨1, 0⟩ ⟨2, 3⟩,
   three_point_boundary_spec.2 ⟨1, 0⟩ ⟨0, 0⟩ ⟨0, 1⟩ (by norm_num [crossProduct_def])⟩

theorem lexLt_x_le {a b : Point} (h : lexLt a b) : a.x ≤ b.x := by
  rcases h with h | ⟨h, _⟩
  · exact le_of_lt h
  · exact le_of_eq h

theorem lexLe_x_le {a b : Point} (h : lexLe a b) : a.x ≤ b.x := by
  rcases h with h | ⟨h, _⟩
  · exact le_of_lt h
  · exact le_of_eq h

theorem cross_mono_down (u v w p : Point) (huv : lexLt u v) (hvw : lexLt v w)
    (hwp : lexLt w p) (hturn : 0 < crossProduct u v w)
    (htop : 0 ≤ crossProduct v w p) :
    0 ≤ crossProduct u v p := by
  have key : crossProduct u v p * (w.x - v.x) =
      crossProduct u v w * (p.x - v.x) + crossProduct v w p * (v.x - u.x) := by
    simp only [crossProduct_def]; ring
  have hux := lexLt_x_le huv
  have hvx := lexLt_x_le hvw
  have hwx := lexLt_x_le hwp
  rcases eq_or_lt_of_le hvx with heq | hlt
  · rcases eq_or_lt_of_le hux with hequ | hltu
    · exfalso
      have : crossProduct u v w = 0 := by
        simp only [crossProduct_def]
        rw [show w.x = u.x from by linarith, show v.x = u.x from hequ.symm]
        ring
      linarith
    · have hwy : v.y < w.y := by
        rcases hvw with h | ⟨_, h⟩
        · exact absurd h (by linarith)
        · exact h
      have hpx : p.x = v.x := by
        have hexp : crossProduct v w p = -((w.y - v.y) * (p.x - v.x)) := by
          simp only [crossProduct_def]
          rw [show w.x = v.x from heq.symm]
          ring
        nlinarith [htop]
      have hpy : w.y < p.y := by
        rcases hwp with h | ⟨_, h⟩
        · exact absurd h (by linarith)
        · exact h
      have hdiff : crossProduct u v p - crossProduct u v w =
          (v.x - u.x) * (p.y - w.y) := by
        simp only [crossProduct_def]
        rw [hpx, show w.x = v.x from heq.symm]
        ring
      nlinarith
  · rcases eq_or_lt_of_le hux with hequ | hltu
    · exfalso
      have hvy : u.y < v.y := by
        rcases huv with h | ⟨_, h⟩
        · exact absurd h (by linarith)
        · exact h
      have : crossProduct u v w = -((v.y - u.y) * (w.x - u.x)) := by
        simp only [crossProduct_def]
        rw [show v.x = u.x from hequ.symm]
        ring
      nlinarith
    · nlinarith [key, mul_pos hturn (show (0:ℚ) < p.x - v.x by linarith),
        mul_nonneg htop (show (0:ℚ) ≤ v.x - u.x by linarith), hlt]

theorem cross_pop_chain (a b p q : Point) (hab : lexLt a b) (hbp : lexLt b p)
    (hqp : lexLt q p) (hA : crossProduct a b p ≤ 0)
    (hB : 0 ≤ crossProduct b p q) :
    0 ≤ crossProduct a p q := by
  have key : crossProduct a p q * (p.x - b.x) =
      crossProduct a b p * (q.x - p.x) + crossProduct b p q * (p.x - a.x) := by
    simp only [crossProduct_def]; ring
  have hax := lexLt_x_le hab
  have hbx := lexLt_x_le hbp
  have hqx := lexLt_x_le hqp
  rcases eq_or_lt_of_le hbx with heq | hlt
  · have hpy : b.y < p.y := by
      rcases hbp with h | ⟨_, h⟩
      · exact absurd h (by linarith)
      · exact h
    rcases eq_or_lt_of_le hax with hequ | hltu
    · have hCexp : crossProduct a p q = -((p.y - a.y) * (q.x - a.x)) := by
        simp only [crossProduct_def]
        rw [show p.x = a.x from by linarith]
        ring
      have hay : a.y < b.y := by
        rcases hab with h | ⟨_, h⟩
        · exact absurd h (by linarith)
        · exact h
      have hqxa : q.x ≤ a.x := by
        have : q.x ≤ p.x := hqx
        linarith
      nlinarith
    · exfalso
      have hAexp : crossProduct a b p = (b.x - a.x) * (p.y - b.y) := by
        simp only [crossProduct_def]
        rw [show p.x = b.x from heq.symm]
        ring
      nlinarith
  · nlinarith [key, mul_nonneg (show (0:ℚ) ≤ -crossProduct a b p by linarith)
      (show (0:ℚ) ≤ p.x - q.x by linarith),
      mul_nonneg hB (show (0:ℚ) ≤ p.x - a.x by linarith), hlt]

theorem cross_stop_edge (a b p q : Point) (hab : lexLt a b) (hbp : lexLt b p)
    (hqb : lexLe q b) (hQ : 0 ≤ crossProduct a b q)
    (hA : 0 < crossProduct a b p) :
    0 ≤ crossProduct b p q := by
  have key : crossProduct b p q * (b.x - a.x) =
      crossProduct a b q * (p.x - b.x) + crossProduct a b p * (b.x - q.x) := by
    simp only [crossProduct_def]; ring
  have hax := lexLt_x_le hab
  have hbx := lexLt_x_le hbp
  have hqx := lexLe_x_le hqb
  rcases eq_or_lt_of_le hax with heq | hlt
  · exfalso
    have hay : a.y < b.y := by
      rcases hab with h | ⟨_, h⟩
      · exact absurd h (by linarith)
      · exact h
    have hAexp : crossProduct a b p = -((b.y - a.y) * (p.x - a.x)) := by
      simp only [crossProduct_def]
      rw [show b.x = a.x from heq.symm]
      ring
    nlinarith
  · nlinarith [key, mul_nonneg hQ (show (0:ℚ) ≤ p.x - b.x by linarith),
      mul_nonneg (le_of_lt hA) (show (0:ℚ) ≤ b.x - q.x by linarith), hlt]

theorem cross_popped_above (a b p q : Point) (hab : lexLt a b) (hbp : lexLt b p)
    (haq : lexLe a q) (hQ : 0 ≤ crossProduct a b q)
    (hA : crossProduct a b p ≤ 0) :
    0 ≤ crossProduct a p q := by
  have key : crossProduct a p q * (b.x - a.x) =
      crossProduct a b q * (p.x - a.x) + (-crossProduct a b p) * (q.x - a.x) := by
    simp only [crossProduct_def]; ring
  have hax := lexLt_x_le hab
  have hbx := lexLt_x_le hbp
  have hqx := lexLe_x_le haq
  rcases eq_or_lt_of_le hax with heq | hlt
  · have hay : a.y < b.y := by
      rcases hab with h | ⟨_, h⟩
      · exact absurd h (by linarith)
      · exact h
    have hQexp : crossProduct a b q = -((b.y - a.y) * (q.x - a.x)) := by
      simp only [crossProduct_def]
      rw [show b.x = a.x from heq.symm]
      ring
    have hqxa : q.x = a.x := by nlinarith
    have hqy : a.y ≤ q.y := by
      rcases haq with h | ⟨_, h⟩
      · exact absurd h (by linarith)
      · exact h
    have hCexp : crossProduct a p q = (p.x - a.x) * (q.y - a.y) := by
      simp only [crossProduct_def]
      rw [hqxa]
      ring
    nlinarith
  · nlinarith [key, mul_nonneg hQ (show (0:ℚ) ≤ p.x - a.x by linarith),
      mul_nonneg (show (0:ℚ) ≤ -crossProduct a b p by linarith)
        (show (0:ℚ) ≤ q.x - a.x by linarith), hlt]

theorem pt_ext {a b : Point} (hx : a.x = b.x) (hy : a.y = b.y) : a = b := by
  cases a; cases b; simp_all

theorem lexLe_of_lexLt {a b : Point} (h : lexLt a b) : lexLe a b := by
  rcases h with h | ⟨hx, hy⟩
  · exact Or.inl h
  · exact Or.inr ⟨hx, le_of_lt hy⟩

theorem lexLt_of_not_lexLe {a b : Point} (h : ¬ lexLe a b) : lexLt b a := by
  unfold lexLe at h
  push_neg at h
  obtain ⟨h1, h2⟩ := h
  rcases lt_or_eq_of_le h1 with hx | hx
  · exact Or.inl hx
  · exact Or.inr ⟨hx, h2 hx.symm⟩

theorem lexLe_antisymm {a b : Point} (h1 : lexLe a b) (h2 : lexLe b a) : a = b := by
  rcases h1 with h1 | ⟨h1x, h1y⟩ <;> rcases h2 with h2 | ⟨h2x, h2y⟩
  · exact absurd h1 (by linarith)
  · exact absurd h1 (by linarith)
  · exact absurd h2 (by linarith)
  · exact pt_ext h1x (le_antisymm h1y h2y)

theorem lexLt_trans' {a b c : Point} (h1 : lexLt a b) (h2 : lexLt b c) : lexLt a c := by
  rcases h1 with h1 | ⟨h1x, h1y⟩ <;> rcases h2 with h2 | ⟨h2x, h2y⟩
  · exact Or.inl (h1.trans h2)
  · exact Or.inl (h2x ▸ h1)
  · exact Or.inl (h1x ▸ h2)
  · exact Or.inr ⟨h1x.trans h2x, h1y.trans h2y⟩

theorem lexLt_ne {a b : Point} (h : lexLt a b) : a ≠ b := by
  intro heq
  subst heq
  rcases h with h | ⟨-, h⟩ <;> exact lt_irrefl _ h

theorem lexLt_of_lexLe_ne {a b : Point} (h : lexLe a b) (hne : a ≠ b) : lexLt a b := by
  rcases h with h | ⟨hx, hy⟩
  · exact Or.inl h
  · rcases lt_or_eq_of_le hy with hy' | hy'
    · exact Or.inr ⟨hx, hy'⟩
    · exact absurd (pt_ext hx hy') hne

theorem collinear_trans (A B x y z : Point) (hne : A ≠ B)
    (hx : crossProduct A B x = 0) (hy : crossProduct A B y = 0)
    (hz : crossProduct A B z = 0) : crossProduct x y z = 0 := by
  have hx' := hx
  have hy' := hy
  have hz' := hz
  simp only [crossProduct_def] at hx' hy' hz'
  have d1 : (B.x - A.x) * (x.y - y.y) - (B.y - A.y) * (x.x - y.x) = 0 := by
    linear_combination hx' - hy'
  have d2 : (B.x - A.x) * (z.y - y.y) - (B.y - A.y) * (z.x - y.x) = 0 := by
    linear_combination hz' - hy'
  have hux : crossProduct x y z * (B.x - A.x) = 0 := by
    simp only [crossProduct_def]
    linear_combination (y.x - x.x) * d2 + (z.x - y.x) * d1
  have huy : crossProduct x y z * (B.y - A.y) = 0 := by
    simp only [crossProduct_def]
    linear_combination (y.y - x.y) * d2 + (z.y - y.y) * d1
  by_contra hnz
  have h1 : B.x - A.x = 0 := by
    rcases mul_eq_zero.mp hux with h | h
    · exact absurd h hnz
    · exact h
  have h2 : B.y - A.y = 0 := by
    rcases mul_eq_zero.mp huy with h | h
    · exact absurd h hnz
    · exact h
  exact hne (pt_ext (by linarith) (by linarith))

theorem junction_pos (pts : List Point) (A B C : Point)
    (hC : C ∈ pts) (hABne : A ≠ B) (hBCne : B ≠ C)
    (hdir : (lexLt A B ∧ lexLt C B) ∨ (lexLt B A ∧ lexLt B C))
    (h1 : ∀ q ∈ pts, 0 ≤ crossProduct A B q)
    (h2 : ∀ q ∈ pts, 0 ≤ crossProduct B C q)
    (x y z : Point) (hx : x ∈ pts) (hy : y ∈ pts) (hz : z ∈ pts)
    (hxyz : crossProduct x y z ≠ 0) :
    0 < crossProduct A B C := by
  rcases lt_or_eq_of_le (h1 C hC) with hpos | hzero
  · exact hpos
  exfalso
  have hcol : crossProduct A B C = 0 := hzero.symm
  have hcol' := hcol
  simp only [crossProduct_def] at hcol'
  have hall : ∀ q ∈ pts, crossProduct A B q = 0 := by
    intro q hq
    have hup := h1 q hq
    have hdn := h2 q hq
    have hrelx : crossProduct B C q * (B.x - A.x) =
        crossProduct A B q * (C.x - B.x) := by
      simp only [crossProduct_def]
      linear_combination (B.x - q.x) * hcol'
    have hrely : crossProduct B C q * (B.y - A.y) =
        crossProduct A B q * (C.y - B.y) := by
      simp only [crossProduct_def]
      linear_combination (B.y - q.y) * hcol'
    have hdown : crossProduct A B q ≤ 0 := by
      rcases hdir with ⟨hab, hcb⟩ | ⟨hba, hbc⟩
      · rcases hab with habx | ⟨habx, haby⟩
        · have hcx : C.x ≤ B.x := lexLt_x_le hcb
          rcases lt_or_eq_of_le hcx with hcx' | hcx'
          · nlinarith
          · exfalso
            have hcy : C.y = B.y := by
              have : (B.x - A.x) * (C.y - B.y) = 0 := by
                linear_combination hcol' + (B.y - A.y) * hcx'
              rcases mul_eq_zero.mp this with h | h
              · exact absurd h (by linarith)
              · linarith
            exact hBCne (pt_ext hcx'.symm hcy.symm)
        · have haby' : A.y < B.y := haby
          have hcx : C.x = A.x := by
            have : (B.y - A.y) * (C.x - A.x) = 0 := by
              linear_combination -hcol' - (C.y - A.y) * habx
            rcases mul_eq_zero.mp this with h | h
            · exact absurd h (by linarith)
            · linarith
          have hcy : C.y < B.y := by
            rcases hcb with h | ⟨-, h⟩
            · exact absurd h (by linarith)
            · exact h
          nlinarith
      · rcases hba with hbax | ⟨hbax, hbay⟩
        · have hcx : B.x ≤ C.x := lexLt_x_le hbc
          rcases lt_or_eq_of_le hcx with hcx' | hcx'
          · nlinarith
          · exfalso
            have hcy : C.y = B.y := by
              have : (B.x - A.x) * (C.y - B.y) = 0 := by
                linear_combination hcol' - (B.y - A.y) * hcx'
              rcases mul_eq_zero.mp this with h | h
              · exact absurd h (by linarith)
              · linarith
            exact hBCne (pt_ext hcx' hcy.symm)
        · have hbay' : B.y < A.y := hbay
          have hcx : C.x = A.x := by
            have : (B.y - A.y) * (C.x - A.x) = 0 := by
              linear_combination -hcol' + (C.y - A.y) * hbax
            rcases mul_eq_zero.mp this with h | h
            · exact absurd h (by linarith)
            · linarith
          have hcy : B.y < C.y := by
            rcases hbc with h | ⟨-, h⟩
            · exact absurd h (by linarith)
            · exact h
          nlinarith
    linarith
  exact hxyz (collinear_trans A B x y z hABne (hall x hx) (hall y hy) (hall z hz))

theorem popBad_suffix (p : Point) (A : List Point) : (popBad p A).IsSuffix A := by
  induction A with
  | nil => exact List.suffix_refl _
  | cons b t ih =>
    cases t with
    | nil => exact List.suffix_refl _
    | cons a t' =>
      by_cases h : crossProduct a b p ≤ 0
      · have he : popBad p (b :: a :: t') = popBad p (a :: t') := by
          simp [popBad, h]
        rw [he]
        exact ih.trans (List.suffix_cons b (a :: t'))
      · have he : popBad p (b :: a :: t') = b :: a :: t' := by
          simp [popBad, h]
        rw [he]

theorem popBad_ne_nil (p : Point) (A : List Point) (h : A ≠ []) :
    popBad p A ≠ [] := by
  induction A with
  | nil => exact absurd rfl h
  | cons b t ih =>
    cases t with
    | nil => simp [popBad]
    | cons a t' =>
      by_cases hc : crossProduct a b p ≤ 0
      · have he : popBad p (b :: a :: t') = popBad p (a :: t') := by
          simp [popBad, hc]
        rw [he]
        exact ih (by simp)
      · have he : popBad p (b :: a :: t') = b :: a :: t' := by
          simp [popBad, hc]
        rw [he]
        simp

theorem popBad_stop (p : Point) (A : List Point) :
    (popBad p A).length ≤ 1 ∨
      ∃ b a t, popBad p A = b :: a :: t ∧ 0 < crossProduct a b p := by
  induction A with
  | nil => exact Or.inl (by simp [popBad])
  | cons b t ih =>
    cases t with
    | nil => exact Or.inl (by simp [popBad])
    | cons a t' =>
      by_cases hc : crossProduct a b p ≤ 0
      · have he : popBad p (b :: a :: t') = popBad p (a :: t') := by
          simp [popBad, hc]
        rw [he]
        exact ih
      · have he : popBad p (b :: a :: t') = b :: a :: t' := by
          simp [popBad, hc]
        rw [he]
        exact Or.inr ⟨b, a, t', rfl, not_le.mp hc⟩

theorem AccTurns_tail {x : Point} {l : List Point} (h : AccTurns (x :: l)) :
    AccTurns l := by
  cases l with
  | nil => trivial
  | cons b t =>
    cases t with
    | nil => trivial
    | cons a t' => exact h.2

theorem AccTurns_suffix {B A : List Point} (hs : B.IsSuffix A) (h : AccTurns A) :
    AccTurns B := by
  obtain ⟨t, rfl⟩ := hs
  revert h
  induction t with
  | nil => exact id
  | cons x t' ih => exact fun h => ih (AccTurns_tail h)

theorem AccAbove_tail {P : List Point} {x : Point} {l : List Point}
    (h : AccAbove P (x :: l)) : AccAbove P l := by
  cases l with
  | nil => trivial
  | cons a t => exact h.2

theorem AccAbove_suffix {P B A : List Point} (hs : B.IsSuffix A)
    (h : AccAbove P A) : AccAbove P B := by
  obtain ⟨t, rfl⟩ := hs
  revert h
  induction t with
  | nil => exact id
  | cons x t' ih => exact fun h => ih (AccAbove_tail h)

theorem AccAbove_merge {P1 P2 B : List Point} (h1 : AccAbove P1 B)
    (h2 : AccAbove P2 B) : AccAbove (P1 ++ P2) B := by
  induction B with
  | nil => trivial
  | cons b t ih =>
    cases t with
    | nil => trivial
    | cons a t' =>
      refine ⟨fun q hq => ?_, ih h1.2 h2.2⟩
      rcases List.mem_append.mp hq with hq' | hq'
      · exact h1.1 q hq'
      · exact h2.1 q hq'

theorem AccAbove_mono {P P' B : List Point} (hsub : ∀ q ∈ P', q ∈ P)
    (h : AccAbove P B) : AccAbove P' B := by
  induction B with
  | nil => trivial
  | cons b t ih =>
    cases t with
    | nil => trivial
    | cons a t' => exact ⟨fun q hq => h.1 q (hsub q hq), ih h.2⟩

theorem suffix_getLast? {B A : List Point} (hs : B.IsSuffix A) (h : B ≠ []) :
    B.getLast? = A.getLast? := by
  obtain ⟨t, rfl⟩ := hs
  exact (List.getLast?_append_of_ne_nil t h).symm

theorem accAbove_point_of_turns (p : Point) :
    ∀ A : List Point, AccTurns A →
      List.Pairwise (fun x y => lexLt y x) A →
      (∀ x ∈ A, lexLt x p) →
      (∀ b a t, A = b :: a :: t → 0 ≤ crossProduct a b p) →
      AccAbove [p] A := by
  intro A
  induction A with
  | nil => intro _ _ _ _; trivial
  | cons b rest ih =>
    intro hturns hpair hlex hhead
    cases rest with
    | nil => trivial
    | cons a t =>
      refine ⟨fun q hq => ?_, ?_⟩
      · rcases List.mem_singleton.mp hq with rfl
        exact hhead b a t rfl
      · apply ih (AccTurns_tail hturns) (List.Pairwise.sublist (by simp) hpair)
          (fun x hx => hlex x (List.mem_cons_of_mem b hx))
        intro a' a'' t'' heq
        obtain ⟨rfl, ht⟩ := (List.cons.injEq _ _ _ _).mp heq
        subst ht
        have hturn : 0 < crossProduct a'' a b := hturns.1
        have hab : lexLt a b := (List.pairwise_cons.mp hpair).1 a (by simp)
        have ha'a : lexLt a'' a :=
          (List.pairwise_cons.mp (List.pairwise_cons.mp hpair).2).1 a'' (by simp)
        exact cross_mono_down a'' a b p ha'a hab (hlex b (by simp)) hturn
          (hhead b a (a'' :: t'') rfl)

theorem popBad_new_edge (p : Point) :
    ∀ A P : List Point,
      AccTurns A →
      List.Pairwise (fun x y => lexLt y x) A →
      AccAbove P A →
      (∀ x ∈ A, lexLt x p) →
      (∀ q ∈ P, lexLt q p) →
      (∀ q ∈ P, ∀ b0 ∈ A.head?, lexLe q b0 ∨ 0 ≤ crossProduct b0 p q) →
      (∀ q ∈ P, ∀ m0 ∈ A.getLast?, lexLe m0 q) →
      ∀ q ∈ P, ∀ bf ∈ (popBad p A).head?, 0 ≤ crossProduct bf p q := by
  intro A
  induction A with
  | nil =>
    intro P _ _ _ _ _ _ _ q _ bf hbf
    simp [popBad] at hbf
  | cons b rest ih =>
    intro P hturns hpair habove hlexA hlexP hmix hbot q hq bf hbf
    cases rest with
    | nil =>
      have he : popBad p [b] = [b] := rfl
      rw [he] at hbf
      have hbfb : bf = b := Eq.symm (by simpa using hbf)
      subst hbfb
      rcases hmix q hq bf (by simp) with hle | hok
      · have hge : lexLe bf q := hbot q hq bf (by simp)
        rw [lexLe_antisymm hle hge]
        have hz : crossProduct bf p bf = 0 := by
          simp only [crossProduct_def]; ring
        linarith
      · exact hok
    | cons a t =>
      have hab : lexLt a b := (List.pairwise_cons.mp hpair).1 a (by simp)
      have hbp : lexLt b p := hlexA b (by simp)
      by_cases hc : crossProduct a b p ≤ 0
      · have he : popBad p (b :: a :: t) = popBad p (a :: t) := by
          simp [popBad, hc]
        rw [he] at hbf
        refine ih P (AccTurns_tail hturns)
          (List.Pairwise.sublist (by simp) hpair) (AccAbove_tail habove)
          (fun x hx => hlexA x (List.mem_cons_of_mem b hx)) hlexP
          ?_ ?_ q hq bf hbf
        · intro q' hq' b0 hb0
          have hb0a : b0 = a := Eq.symm (by simpa using hb0)
          subst hb0a
          rcases hmix q' hq' b (by simp) with hle | hok
          · by_cases hqa : lexLe q' b0
            · exact Or.inl hqa
            · right
              have haq : lexLt b0 q' := lexLt_of_not_lexLe hqa
              exact cross_popped_above b0 b p q' hab hbp (lexLe_of_lexLt haq)
                (habove.1 q' hq') hc
          · right
            exact cross_pop_chain b0 b p q' hab hbp (hlexP q' hq') hc hok
        · intro q' hq' m0 hm0
          apply hbot q' hq' m0
          rw [List.getLast?_cons_cons]
          exact hm0
      · have he : popBad p (b :: a :: t) = b :: a :: t := by
          simp [popBad, hc]
        rw [he] at hbf
        have hbfb : bf = b := Eq.symm (by simpa using hbf)
        subst hbfb
        rcases hmix q hq bf (by simp) with hle | hok
        · exact cross_stop_edge a bf p q hab hbp hle (habove.1 q hq) (not_le.mp hc)
        · exact hok

theorem lexLe_refl (a : Point) : lexLe a a := Or.inr ⟨rfl, le_rfl⟩

theorem mem_head_lexLe {P : List Point} (hs : P.Pairwise lexLt) {q : Point}
    (hq : q ∈ P) : ∀ m0 ∈ P.head?, lexLe m0 q := by
  cases P with
  | nil => simp at hq
  | cons x t =>
    intro m0 hm0
    have hm : m0 = x := Eq.symm (by simpa using hm0)
    subst hm
    rcases List.mem_cons.mp hq with rfl | hq'
    · exact lexLe_refl q
    · exact lexLe_of_lexLt ((List.pairwise_cons.mp hs).1 q hq')

theorem mem_lexLe_getLast {P : List Point} (hs : P.Pairwise lexLt) {q : Point}
    (hq : q ∈ P) : ∀ b0 ∈ P.getLast?, lexLe q b0 := by
  induction P with
  | nil => simp at hq
  | cons x t ih =>
    intro b0 hb0
    cases t with
    | nil =>
      have hb : b0 = x := Eq.symm (by simpa using hb0)
      subst hb
      have hqx : q = b0 := by simpa using hq
      subst hqx
      exact lexLe_refl q
    | cons y t' =>
      rw [List.getLast?_cons_cons] at hb0
      have hb0mem : b0 ∈ y :: t' := List.mem_of_mem_getLast? hb0
      rcases List.mem_cons.mp hq with rfl | hq'
      · exact lexLe_of_lexLt ((List.pairwise_cons.mp hs).1 b0 hb0mem)
      · exact ih (List.pairwise_cons.mp hs).2 hq' b0 hb0

theorem desc_of_sublist {A P : List Point} (hsub : A.reverse.Sublist P)
    (hs : P.Pairwise lexLt) : List.Pairwise (fun x y => lexLt y x) A := by
  have h1 : A.reverse.Pairwise lexLt := List.Pairwise.sublist hsub hs
  exact List.pairwise_reverse.mp h1

theorem hullFold_inv :
    ∀ (R A P : List Point),
      (P ++ R).Pairwise lexLt →
      A.reverse.Sublist P →
      A.getLast? = P.head? →
      A.head? = P.getLast? →
      AccTurns A →
      AccAbove P A →
      (A = [] → P = []) →
      (R.foldl hullStep A).reverse.Sublist (P ++ R) ∧
        (R.foldl hullStep A).getLast? = (P ++ R).head? ∧
        (R.foldl hullStep A).head? = (P ++ R).getLast? ∧
        AccTurns (R.foldl hullStep A) ∧
        AccAbove (P ++ R) (R.foldl hullStep A) ∧
        (R.foldl hullStep A = [] → P ++ R = []) := by
  intro R
  induction R with
  | nil =>
    intro A P hsort hsub hbot htop hturns habove hnil
    simp only [List.foldl_nil, List.append_nil]
    exact ⟨hsub, hbot, htop, hturns, habove, hnil⟩
  | cons p R' ih =>
    intro A P hsort hsub hbot htop hturns habove hnil
    have hassoc : (P ++ [p]) ++ R' = P ++ p :: R' := by simp
    have hfold : (p :: R').foldl hullStep A = R'.foldl hullStep (hullStep A p) := rfl
    by_cases hAe : A = []
    · have hPe : P = [] := hnil hAe
      subst hAe; subst hPe
      have hstep : hullStep ([] : List Point) p = [p] := rfl
      have hmain := ih (hullStep [] p) [p] (by simpa using hsort)
        (by rw [hstep]; simp) (by rw [hstep]; rfl) (by rw [hstep]; rfl)
        (by rw [hstep]; trivial) (by rw [hstep]; trivial)
        (by rw [hstep]; simp)
      rw [hfold]
      simpa using hmain
    · have hsort' : ((P ++ [p]) ++ R').Pairwise lexLt := by rw [hassoc]; exact hsort
      have hPsort : P.Pairwise lexLt := (List.pairwise_append.mp hsort).1
      have hPp : ∀ q ∈ P, lexLt q p := fun q hq =>
        (List.pairwise_append.mp hsort).2.2 q hq p (by simp)
      have hdesc : List.Pairwise (fun x y => lexLt y x) A := desc_of_sublist hsub hPsort
      have hAmem : ∀ x ∈ A, x ∈ P := fun x hx =>
        List.Sublist.mem (List.mem_reverse.mpr hx) hsub
      have hAp : ∀ x ∈ A, lexLt x p := fun x hx => hPp x (hAmem x hx)
      have hPne : P ≠ [] := by
        intro hPe
        rw [hPe] at hsub
        have hre : A.reverse = [] := List.sublist_nil.mp hsub
        exact hAe (by simpa using hre)
      have hpbne : popBad p A ≠ [] := popBad_ne_nil p A hAe
      obtain ⟨tA, htA⟩ := popBad_suffix p A
      have hrevA : A.reverse = (popBad p A).reverse ++ tA.reverse := by
        rw [← List.reverse_append, htA]
      have hsubpop : (popBad p A).reverse.Sublist A.reverse := by
        rw [hrevA]; exact List.sublist_append_left _ _
      have hsub' : (hullStep A p).reverse.Sublist (P ++ [p]) := by
        show (p :: popBad p A).reverse.Sublist (P ++ [p])
        rw [List.reverse_cons]
        exact List.Sublist.append (hsubpop.trans hsub) (List.Sublist.refl _)
      have hbot' : (hullStep A p).getLast? = (P ++ [p]).head? := by
        obtain ⟨x, xs, hx⟩ := List.exists_cons_of_ne_nil hpbne
        show (p :: popBad p A).getLast? = _
        rw [hx, List.getLast?_cons_cons, ← hx,
          suffix_getLast? (popBad_suffix p A) hpbne, hbot]
        exact (List.head?_append_of_ne_nil P hPne).symm
      have htop' : (hullStep A p).head? = (P ++ [p]).getLast? := by
        show (p :: popBad p A).head? = _
        rw [List.getLast?_concat]
        rfl
      have hturns' : AccTurns (hullStep A p) := by
        show AccTurns (p :: popBad p A)
        rcases popBad_stop p A with hlen | ⟨b, a, t, heq, hstop⟩
        · cases hpb : popBad p A with
          | nil => trivial
          | cons x xs =>
            cases xs with
            | nil => trivial
            | cons y t =>
              rw [hpb] at hlen
              simp at hlen
        · rw [heq]
          refine ⟨hstop, ?_⟩
          rw [← heq]
          exact AccTurns_suffix (popBad_suffix p A) hturns
      have habove' : AccAbove (P ++ [p]) (hullStep A p) := by
        show AccAbove (P ++ [p]) (p :: popBad p A)
        obtain ⟨bf, rest, hx⟩ := List.exists_cons_of_ne_nil hpbne
        rw [hx]
        refine ⟨?_, ?_⟩
        · intro q hq
          rcases List.mem_append.mp hq with hqP | hqp
          · refine popBad_new_edge p A P hturns hdesc habove hAp hPp ?_ ?_ q hqP bf
              (by rw [hx]; rfl)
            · intro q' hq' b0 hb0
              left
              rw [htop] at hb0
              exact mem_lexLe_getLast hPsort hq' b0 hb0
            · intro q' hq' m0 hm0
              rw [hbot] at hm0
              exact mem_head_lexLe hPsort hq' m0 hm0
          · have hqp' : q = p := by simpa using hqp
            rw [hqp']
            have hz : crossProduct bf p p = 0 := by
              simp only [crossProduct_def]; ring
            linarith
        · rw [← hx]
          have h1 : AccAbove P (popBad p A) := AccAbove_suffix (popBad_suffix p A) habove
          have h2 : AccAbove [p] (popBad p A) := by
            apply accAbove_point_of_turns p (popBad p A)
              (AccTurns_suffix (popBad_suffix p A) hturns)
              (List.Pairwise.sublist (popBad_suffix p A).sublist hdesc)
              (fun x hx' => hAp x (List.Sublist.mem hx' (popBad_suffix p A).sublist))
            intro b' a' t' heq'
            rcases popBad_stop p A with hlen | ⟨b, a, t, heq, hstop⟩
            · rw [heq'] at hlen
              simp at hlen
            · rw [heq] at heq'
              obtain ⟨h1', h2'⟩ := (List.cons.injEq _ _ _ _).mp heq'
              obtain ⟨h3', _⟩ := (List.cons.injEq _ _ _ _).mp h2'
              subst h1'; subst h3'
              exact le_of_lt hstop
          exact AccAbove_merge h1 h2
      have hnil' : hullStep A p = [] → P ++ [p] = [] := by
        intro h
        exact absurd h (by simp [hullStep])
      have hmain := ih (hullStep A p) (P ++ [p]) hsort'
        hsub' hbot' htop' hturns' habove' hnil'
      rw [hfold]
      rw [hassoc] at hmain
      exact hmain

theorem TurnsP_tail {x : Point} {l : List Point} (h : TurnsP (x :: l)) : TurnsP l := by
  cases l with
  | nil => trivial
  | cons b t =>
    cases t with
    | nil => trivial
    | cons c t' => exact h.2

theorem exists_concat2 {l : List Point} (h : 2 ≤ l.length) :
    ∃ X u v, l = X ++ [u, v] := by
  have hrev : l = l.reverse.reverse := (List.reverse_reverse l).symm
  cases hr : l.reverse with
  | nil =>
    rw [hr] at hrev
    rw [hrev] at h
    simp at h
  | cons v t =>
    cases t with
    | nil =>
      rw [hr] at hrev
      rw [hrev] at h
      simp at h
    | cons u t' =>
      refine ⟨t'.reverse, u, v, ?_⟩
      rw [hrev, hr]
      simp

theorem lastTwoTurn_concat2 (X : List Point) (a b c : Point) :
    lastTwoTurn (X ++ [a, b]) c ↔ 0 < crossProduct a b c := by
  have h1 : (X ++ [a, b]).getLast? = some b := by
    rw [show X ++ [a, b] = (X ++ [a]) ++ [b] by simp]
    exact List.getLast?_concat _
  have h2 : (X ++ [a, b]).dropLast = X ++ [a] := by
    rw [show X ++ [a, b] = (X ++ [a]) ++ [b] by simp]
    exact List.dropLast_concat
  unfold lastTwoTurn
  rw [h1, h2, List.getLast?_concat]

theorem lastTwoTurn_append_right (X Y : List Point) (z : Point) (hY : 2 ≤ Y.length) :
    lastTwoTurn (X ++ Y) z ↔ lastTwoTurn Y z := by
  obtain ⟨W, u, v, rfl⟩ := exists_concat2 hY
  rw [show X ++ (W ++ [u, v]) = (X ++ W) ++ [u, v] by simp]
  rw [lastTwoTurn_concat2, lastTwoTurn_concat2]

theorem TurnsP_snoc (l : List Point) (z : Point) :
    TurnsP (l ++ [z]) ↔ TurnsP l ∧ lastTwoTurn l z := by
  induction l with
  | nil =>
    constructor
    · intro _; exact ⟨trivial, trivial⟩
    · intro _; trivial
  | cons a l ih =>
    cases l with
    | nil =>
      constructor
      · intro _; exact ⟨trivial, trivial⟩
      · intro _; trivial
    | cons b t =>
      cases t with
      | nil =>
        constructor
        · intro h
          exact ⟨trivial, h.1⟩
        · intro h
          exact ⟨h.2, trivial⟩
      | cons c t' =>
        have hrw : (a :: b :: c :: t') ++ [z] = a :: ((b :: c :: t') ++ [z]) := by simp
        rw [hrw]
        have hlt : lastTwoTurn (a :: b :: c :: t') z ↔ lastTwoTurn (b :: c :: t') z := by
          have := lastTwoTurn_append_right [a] (b :: c :: t') z (by simp)
          simpa using this
        constructor
        · intro h
          have h2 := ih.mp (TurnsP_tail h)
          have hhead : 0 < crossProduct a b c := h.1
          exact ⟨⟨hhead, h2.1⟩, hlt.mpr h2.2⟩
        · intro h
          exact ⟨h.1.1, ih.mpr ⟨h.1.2, hlt.mp h.2⟩⟩

theorem TurnsP_append_general :
    ∀ X Y : List Point, TurnsP (X ++ Y.take 2) → TurnsP Y → TurnsP (X ++ Y) := by
  intro X
  induction X with
  | nil => intro Y _ hY; exact hY
  | cons x X' ih =>
    intro Y h1 hY
    have ihh : TurnsP (X' ++ Y) := ih Y (TurnsP_tail h1) hY
    show TurnsP (x :: (X' ++ Y))
    cases X' with
    | nil =>
      cases Y with
      | nil => trivial
      | cons u Y1 =>
        cases Y1 with
        | nil => trivial
        | cons v Y2 => exact ⟨h1.1, hY⟩
    | cons a X'' =>
      cases X'' with
      | nil =>
        cases Y with
        | nil => trivial
        | cons u Y1 => exact ⟨h1.1, ihh⟩
      | cons b X''' => exact ⟨h1.1, ihh⟩

theorem AccTurns_TurnsP_reverse : ∀ {A : List Point}, AccTurns A → TurnsP A.reverse := by
  intro A
  induction A with
  | nil => intro _; trivial
  | cons c rest ih =>
    intro h
    rw [List.reverse_cons]
    rw [TurnsP_snoc]
    refine ⟨ih (AccTurns_tail h), ?_⟩
    cases rest with
    | nil => trivial
    | cons b rest' =>
      cases rest' with
      | nil => trivial
      | cons a t =>
        have hrw : (b :: a :: t).reverse = t.reverse ++ [a, b] := by simp
        rw [hrw, lastTwoTurn_concat2]
        exact h.1

theorem adjPairs_concat :
    ∀ (l : List Point) (z : Point),
      adjPairs (l ++ [z]) =
        adjPairs l ++ (match l.getLast? with
          | some w => [(w, z)]
          | none => []) := by
  intro l
  induction l with
  | nil => intro z; rfl
  | cons a t ih =>
    intro z
    cases t with
    | nil => rfl
    | cons b t' =>
      have hrw : ((a :: b :: t') ++ [z]) = a :: ((b :: t') ++ [z]) := by simp
      rw [hrw]
      have hcons : adjPairs (a :: ((b :: t') ++ [z])) =
          (a, b) :: adjPairs ((b :: t') ++ [z]) := by
        cases t' <;> rfl
      rw [hcons, ih z]
      rfl

theorem AccAbove_adjPairs :
    ∀ {A P : List Point}, AccAbove P A →
      ∀ e ∈ adjPairs A.reverse, ∀ q ∈ P, 0 ≤ crossProduct e.1 e.2 q := by
  intro A
  induction A with
  | nil => intro P _ e he; simp [adjPairs] at he
  | cons b rest ih =>
    intro P h e he q hq
    cases rest with
    | nil => simp [adjPairs] at he
    | cons a t =>
      rw [List.reverse_cons, adjPairs_concat] at he
      have hlast : (a :: t).reverse.getLast? = some a := by
        rw [List.getLast?_reverse]
        rfl
      rw [hlast] at he
      rcases List.mem_append.mp he with he' | he'
      · exact ih h.2 e he' q hq
      · have : e = (a, b) := by simpa using he'
        rw [this]
        exact h.1 q hq

theorem chain_spec (S : List Point) (hs : S.Pairwise lexLt) :
    (chainOf S).Sublist S ∧
      (chainOf S).head? = S.head? ∧
      (chainOf S).getLast? = S.getLast? ∧
      TurnsP (chainOf S) ∧
      (∀ e ∈ adjPairs (chainOf S), ∀ q ∈ S, 0 ≤ crossProduct e.1 e.2 q) ∧
      (chainOf S = [] → S = []) := by
  have h := hullFold_inv S [] [] (by simpa using hs) (by simp) (by simp) (by simp)
    trivial trivial (fun _ => rfl)
  obtain ⟨h1, h2, h3, h4, h5, h6⟩ := h
  rw [List.nil_append] at h1 h2 h3 h5 h6
  refine ⟨h1, ?_, ?_, ?_, ?_, ?_⟩
  · show (S.foldl hullStep []).reverse.head? = S.head?
    rw [List.head?_reverse]
    exact h2
  · show (S.foldl hullStep []).reverse.getLast? = S.getLast?
    rw [List.getLast?_reverse]
    exact h3
  · exact AccTurns_TurnsP_reverse h4
  · exact AccAbove_adjPairs h5
  · intro hc
    apply h6
    have : (S.foldl hullStep []).reverse = [] := hc
    simpa using this

theorem negPt_inj {a b : Point} (h : negPt a = negPt b) : a = b := by
  have hx : -a.x = -b.x := congrArg Point.x h
  have hy : -a.y = -b.y := congrArg Point.y h
  exact pt_ext (by linarith) (by linarith)

theorem optMap_negPt_cancel {o1 o2 : Option Point}
    (h : o1.map negPt = o2.map negPt) : o1 = o2 := by
  cases o1 with
  | none =>
    cases o2 with
    | none => rfl
    | some b => simp at h
  | some a =>
    cases o2 with
    | none => simp at h
    | some b =>
      simp only [Option.map_some', Option.some.injEq] at h
      rw [negPt_inj h]

theorem cross_neg (o a b : Point) :
    crossProduct (negPt o) (negPt a) (negPt b) = crossProduct o a b := by
  simp only [crossProduct_def, negPt]
  ring

theorem lexLt_neg (a b : Point) : lexLt (negPt a) (negPt b) ↔ lexLt b a := by
  simp only [lexLt_def, negPt]
  constructor
  · rintro (h | ⟨h1, h2⟩)
    · exact Or.inl (by linarith)
    · exact Or.inr ⟨by linarith, by linarith⟩
  · rintro (h | ⟨h1, h2⟩)
    · exact Or.inl (by linarith)
    · exact Or.inr ⟨by linarith, by linarith⟩

theorem popBad_neg (p : Point) :
    ∀ A : List Point, popBad (negPt p) (A.map negPt) = (popBad p A).map negPt := by
  intro A
  induction A with
  | nil => rfl
  | cons b t ih =>
    cases t with
    | nil => rfl
    | cons a t' =>
      simp only [List.map_cons]
      by_cases hc : crossProduct a b p ≤ 0
      · rw [show popBad (negPt p) (negPt b :: negPt a :: t'.map negPt) =
            popBad (negPt p) (negPt a :: t'.map negPt) by
          simp [popBad, cross_neg, hc]]
        rw [show popBad p (b :: a :: t') = popBad p (a :: t') by simp [popBad, hc]]
        simpa using ih
      · rw [show popBad (negPt p) (negPt b :: negPt a :: t'.map negPt) =
            negPt b :: negPt a :: t'.map negPt by
          simp [popBad, cross_neg, hc]]
        rw [show popBad p (b :: a :: t') = b :: a :: t' by simp [popBad, hc]]
        simp

theorem foldl_hullStep_neg :
    ∀ (l A : List Point),
      (l.map negPt).foldl hullStep (A.map negPt) = (l.foldl hullStep A).map negPt := by
  intro l
  induction l with
  | nil => intro A; rfl
  | cons p l' ih =>
    intro A
    simp only [List.map_cons, List.foldl_cons]
    rw [show hullStep (A.map negPt) (negPt p) = (hullStep A p).map negPt by
      show negPt p :: popBad (negPt p) (A.map negPt) = (p :: popBad p A).map negPt
      rw [popBad_neg p A, List.map_cons]]
    exact ih (hullStep A p)

theorem chainOf_neg (l : List Point) :
    chainOf (l.map negPt) = (chainOf l).map negPt := by
  show ((l.map negPt).foldl hullStep []).reverse = ((l.foldl hullStep []).reverse).map negPt
  rw [List.map_reverse]
  congr 1
  exact foldl_hullStep_neg l []

theorem TurnsP_map_neg : ∀ {l : List Point}, TurnsP (l.map negPt) → TurnsP l := by
  intro l
  induction l with
  | nil => intro _; trivial
  | cons a t ih =>
    intro h
    cases t with
    | nil => trivial
    | cons b t' =>
      cases t' with
      | nil => trivial
      | cons c t'' =>
        refine ⟨?_, ih h.2⟩
        have := h.1
        rwa [cross_neg] at this

theorem adjPairs_map_neg :
    ∀ l : List Point,
      adjPairs (l.map negPt) = (adjPairs l).map (fun e => (negPt e.1, negPt e.2)) := by
  intro l
  induction l with
  | nil => rfl
  | cons a t ih =>
    cases t with
    | nil => rfl
    | cons b t' =>
      simp only [List.map_cons]
      show (negPt a, negPt b) :: adjPairs (negPt b :: t'.map negPt) = _
      rw [show (negPt b :: t'.map negPt) = (b :: t').map negPt by simp, ih]
      rfl

theorem eq_dropLast_concat {l : List Point} {M : Point} (h : l.getLast? = some M) :
    l = l.dropLast ++ [M] := by
  have hne : l ≠ [] := by
    intro h'
    rw [h'] at h
    simp at h
  have h2 := List.getLast?_eq_getLast l hne
  rw [h2] at h
  have h3 : l.getLast hne = M := Option.some.inj h
  conv_lhs => rw [← List.dropLast_append_getLast hne]
  rw [h3]

theorem head?_some_cons {l : List Point} {m : Point} (h : l.head? = some m) :
    ∃ t, l = m :: t := by
  cases l with
  | nil => simp at h
  | cons a t => exact ⟨t, by rw [show a = m from Option.some.inj h]⟩

theorem head_eq_of_head? {l : List Point} {a : Point} (hne : l ≠ [])
    (h : l.head? = some a) : l.head hne = a := by
  rw [List.head?_eq_head hne] at h
  exact Option.some.inj h

theorem getLast_eq_of_getLast? {l : List Point} {a : Point} (hne : l ≠ [])
    (h : l.getLast? = some a) : l.getLast hne = a := by
  rw [List.getLast?_eq_getLast l hne] at h
  exact Option.some.inj h

set_option maxHeartbeats 1000000 in
/-- C2: for a duplicate-free input of at least 3 points that are not all
collinear, every input point lies on or to the left of every directed edge of
the polygon returned by `calculateConvexHull` (that is, on the hull boundary or
inside it), and the returned polygon is convex: every cyclically consecutive
triple of hull vertices makes a strict left turn. -/
theorem convexHull_contains_and_convex (pts : List Point)
    (hnodup : pts.Nodup) (h3 : 3 ≤ pts.length)
    (hnc : ∃ x ∈ pts, ∃ y ∈ pts, ∃ z ∈ pts, crossProduct x y z ≠ 0) :
    TurnsP (calculateConvexHull pts ++ (calculateConvexHull pts).take 2) ∧
      ∀ q ∈ pts, ∀ e ∈ cyclicPairs (calculateConvexHull pts),
        0 ≤ crossProduct e.1 e.2 q := by
  have hlen3 : ¬ pts.length < 3 := by omega
  have hperm : (pts.insertionSort lexLe).Perm pts := List.perm_insertionSort lexLe pts
  set S := pts.insertionSort lexLe with hSdef
  have hmemS : ∀ q, q ∈ S ↔ q ∈ pts := fun q => hperm.mem_iff
  have hSlen : S.length = pts.length := hperm.length_eq
  have hsorted : S.Pairwise lexLe := List.sorted_insertionSort lexLe pts
  have hSnodup : S.Pairwise (fun a b => a ≠ b) := hperm.nodup_iff.mpr hnodup
  have hSlt : S.Pairwise lexLt :=
    (List.Pairwise.and hsorted hSnodup).imp (fun h => lexLt_of_lexLe_ne h.1 h.2)
  obtain ⟨x0, hx0, y0, hy0, z0, hz0, hxyz0⟩ := hnc
  rw [← hmemS] at hx0 hy0 hz0
  obtain ⟨hLsub, hLhead, hLlast, hLturns, hLedges, hLnil⟩ := chain_spec S hSlt
  set L := chainOf S with hLdef
  have hTlt : ((S.reverse.map negPt) : List Point).Pairwise lexLt := by
    rw [List.pairwise_map, List.pairwise_reverse]
    exact hSlt.imp (fun h => (lexLt_neg _ _).mpr h)
  obtain ⟨hUsub', hUhead', hUlast', hUturns', hUedges', hUnil'⟩ :=
    chain_spec (S.reverse.map negPt) hTlt
  rw [chainOf_neg] at hUsub' hUhead' hUlast' hUturns' hUedges' hUnil'
  set U := chainOf S.reverse with hUdef
  have hUhead : U.head? = S.getLast? := by
    apply optMap_negPt_cancel
    calc U.head?.map negPt = (U.map negPt).head? := (List.head?_map _ _).symm
      _ = (S.reverse.map negPt).head? := hUhead'
      _ = S.reverse.head?.map negPt := List.head?_map _ _
      _ = S.getLast?.map negPt := by rw [List.head?_reverse]
  have hUlast : U.getLast? = S.head? := by
    apply optMap_negPt_cancel
    calc U.getLast?.map negPt = (U.map negPt).getLast? := (List.getLast?_map _ _).symm
      _ = (S.reverse.map negPt).getLast? := hUlast'
      _ = S.reverse.getLast?.map negPt := List.getLast?_map _ _
      _ = S.head?.map negPt := by rw [List.getLast?_reverse]
  have hUturns : TurnsP U := TurnsP_map_neg hUturns'
  have hUedges : ∀ e ∈ adjPairs U, ∀ q ∈ S, 0 ≤ crossProduct e.1 e.2 q := by
    intro e he q hq
    have he' : (negPt e.1, negPt e.2) ∈ adjPairs (U.map negPt) := by
      rw [adjPairs_map_neg]
      exact List.mem_map_of_mem _ he
    have hq' : negPt q ∈ S.reverse.map negPt :=
      List.mem_map_of_mem _ (List.mem_reverse.mpr hq)
    have h0 := hUedges' _ he' _ hq'
    rwa [cross_neg] at h0
  have hUmem : ∀ x ∈ U, x ∈ S := by
    intro x hx
    have h1 : negPt x ∈ U.map negPt := List.mem_map_of_mem _ hx
    have h2 := List.Sublist.mem h1 hUsub'
    obtain ⟨y, hy, hyx⟩ := List.mem_map.mp h2
    rw [← negPt_inj hyx]
    exact List.mem_reverse.mp hy
  have hUdesc : U.Pairwise (fun a b => lexLt b a) := by
    have h1 : (U.map negPt).Pairwise lexLt := List.Pairwise.sublist hUsub' hTlt
    rw [List.pairwise_map] at h1
    exact h1.imp (fun h => (lexLt_neg _ _).mp h)
  have hLmem : ∀ x ∈ L, x ∈ S := fun x hx => List.Sublist.mem hx hLsub
  have hLlt : L.Pairwise lexLt := List.Pairwise.sublist hLsub hSlt
  have hSne : S ≠ [] := by
    intro h
    rw [h] at hSlen
    simp at hSlen
    omega
  obtain ⟨m, hmS⟩ : ∃ m, S.head? = some m := ⟨S.head hSne, List.head?_eq_head hSne⟩
  obtain ⟨M, hMS⟩ : ∃ M, S.getLast? = some M :=
    ⟨S.getLast hSne, List.getLast?_eq_getLast S hSne⟩
  have hmmem : m ∈ S := List.mem_of_mem_head? hmS
  have hMmem : M ∈ S := List.mem_of_mem_getLast? hMS
  have hmMlt : lexLt m M := by
    obtain ⟨rest, hrest⟩ := head?_some_cons hmS
    have hrne : rest ≠ [] := by
      intro h
      rw [hrest, h] at hSlen
      simp at hSlen
      omega
    have hMrest : M ∈ rest := by
      obtain ⟨b, rest', hb⟩ := List.exists_cons_of_ne_nil hrne
      have hgl : (m :: rest).getLast? = rest.getLast? := by
        rw [hb, List.getLast?_cons_cons]
      rw [hrest, hgl] at hMS
      exact List.mem_of_mem_getLast? hMS
    have hSlt2 := hSlt
    rw [hrest] at hSlt2
    exact (List.pairwise_cons.mp hSlt2).1 M hMrest
  have hmMne : m ≠ M := lexLt_ne hmMlt
  have hLne : L ≠ [] := fun h => hSne (hLnil h)
  have hUne : U ≠ [] := by
    intro h
    apply hSne
    have h1 : U.map negPt = [] := by rw [h]; rfl
    have h2 := hUnil' h1
    simpa using h2
  have hLheadm : L.head? = some m := by rw [hLhead, hmS]
  have hLlastM : L.getLast? = some M := by rw [hLlast, hMS]
  have hUheadM : U.head? = some M := by rw [hUhead, hMS]
  have hUlastm : U.getLast? = some m := by rw [hUlast, hmS]
  have hLsplit : L = L.dropLast ++ [M] := eq_dropLast_concat hLlastM
  have hUsplit : U = U.dropLast ++ [m] := eq_dropLast_concat hUlastm
  have hH : calculateConvexHull pts = L.dropLast ++ U.dropLast := by
    unfold calculateConvexHull
    rw [if_neg hlen3]
  have hlbody_ne : L.dropLast ≠ [] := by
    intro h
    have h2 := hLheadm
    rw [hLsplit, h] at h2
    simp at h2
    exact hmMne h2.symm
  have hubody_ne : U.dropLast ≠ [] := by
    intro h
    have h2 := hUheadM
    rw [hUsplit, h] at h2
    simp at h2
    exact hmMne h2
  have hlbody_head : (L.dropLast).head? = some m := by
    have h2 := hLheadm
    rw [hLsplit, List.head?_append_of_ne_nil _ hlbody_ne] at h2
    exact h2
  have hubody_head : (U.dropLast).head? = some M := by
    have h2 := hUheadM
    rw [hUsplit, List.head?_append_of_ne_nil _ hubody_ne] at h2
    exact h2
  obtain ⟨lrest, hlrest⟩ := head?_some_cons hlbody_head
  obtain ⟨urest, hurest⟩ := head?_some_cons hubody_head
  obtain ⟨lg, hlg⟩ : ∃ lg, (L.dropLast).getLast? = some lg :=
    ⟨_, List.getLast?_eq_getLast _ hlbody_ne⟩
  obtain ⟨ug, hug⟩ : ∃ ug, (U.dropLast).getLast? = some ug :=
    ⟨_, List.getLast?_eq_getLast _ hubody_ne⟩
  have hlgM_edge : (lg, M) ∈ adjPairs L := by
    rw [hLsplit, adjPairs_concat, hlg]
    simp
  have hugm_edge : (ug, m) ∈ adjPairs U := by
    rw [hUsplit, adjPairs_concat, hug]
    simp
  have hlgltM : lexLt lg M := by
    have hlgmem : lg ∈ L.dropLast := List.mem_of_mem_getLast? hlg
    have h2 := hLlt
    rw [hLsplit] at h2
    exact (List.pairwise_append.mp h2).2.2 lg hlgmem M (by simp)
  have hmltug : lexLt m ug := by
    have hugmem : ug ∈ U.dropLast := List.mem_of_mem_getLast? hug
    have h2 := hUdesc
    rw [hUsplit] at h2
    exact (List.pairwise_append.mp h2).2.2 ug hugmem m (by simp)
  have hjunc : ∀ A B C : Point, C ∈ S → A ≠ B → B ≠ C →
      ((lexLt A B ∧ lexLt C B) ∨ (lexLt B A ∧ lexLt B C)) →
      (∀ q ∈ S, 0 ≤ crossProduct A B q) → (∀ q ∈ S, 0 ≤ crossProduct B C q) →
      0 < crossProduct A B C :=
    fun A B C hC hab hbc hdir h1 h2 =>
      junction_pos S A B C hC hab hbc hdir h1 h2 x0 y0 z0 hx0 hy0 hz0 hxyz0
  have hjM : ∀ C, C ∈ S → lexLt C M → (M, C) ∈ adjPairs U →
      0 < crossProduct lg M C := fun C hC hCM hedge =>
    hjunc lg M C hC (lexLt_ne hlgltM) (Ne.symm (lexLt_ne hCM))
      (Or.inl ⟨hlgltM, hCM⟩) (fun q hq => hLedges _ hlgM_edge q hq)
      (fun q hq => hUedges _ hedge q hq)
  have hjm : ∀ C, C ∈ S → lexLt m C → (m, C) ∈ adjPairs L →
      0 < crossProduct ug m C := fun C hC hmC hedge =>
    hjunc ug m C hC (Ne.symm (lexLt_ne hmltug)) (lexLt_ne hmC)
      (Or.inr ⟨hmltug, hmC⟩) (fun q hq => hUedges _ hugm_edge q hq)
      (fun q hq => hLedges _ hedge q hq)
  have hLsplit2 : L = L.dropLast.dropLast ++ [lg, M] := by
    have h1 : L.dropLast = L.dropLast.dropLast ++ [lg] := eq_dropLast_concat hlg
    rw [hLsplit]
    conv_lhs => rw [h1]
    simp
  have hUsplit2 : U = U.dropLast.dropLast ++ [ug, m] := by
    have h1 : U.dropLast = U.dropLast.dropLast ++ [ug] := eq_dropLast_concat hug
    rw [hUsplit]
    conv_lhs => rw [h1]
    simp
  have hcont : ∀ q ∈ pts, ∀ e ∈ cyclicPairs (calculateConvexHull pts),
      0 ≤ crossProduct e.1 e.2 q := by
    intro q hq e he
    have hqS : q ∈ S := (hmemS q).mpr hq
    rw [hH] at he
    have htake1 : (L.dropLast ++ U.dropLast).take 1 = [m] := by
      have hhd : (L.dropLast ++ U.dropLast).head? = some m := by
        rw [List.head?_append_of_ne_nil _ hlbody_ne, hlbody_head]
      obtain ⟨t, ht⟩ := head?_some_cons hhd
      rw [ht]
      rfl
    unfold cyclicPairs at he
    rw [htake1,
      show (L.dropLast ++ U.dropLast) ++ [m] = L.dropLast ++ (U.dropLast ++ [m]) by
        simp] at he
    rw [adjPairs_append _ _ hlbody_ne (by simp)] at he
    rcases List.mem_append.mp he with he1 | he2
    · have hmemL : e ∈ adjPairs L := by
        rw [hLsplit, adjPairs_concat, hlg]
        exact List.mem_append_left _ he1
      exact hLedges e hmemL q hqS
    · rcases List.mem_cons.mp he2 with he3 | he4
      · have hgl : (L.dropLast).getLast hlbody_ne = lg := getLast_eq_of_getLast? _ hlg
        have hhd : (U.dropLast ++ [m]).head (by simp) = M := by
          apply head_eq_of_head?
          rw [List.head?_append_of_ne_nil _ hubody_ne, hubody_head]
        rw [he3, hgl, hhd]
        exact hLedges (lg, M) hlgM_edge q hqS
      · have hmemU : e ∈ adjPairs U := by rw [hUsplit]; exact he4
        exact hUedges e hmemU q hqS
  refine ⟨?_, hcont⟩
  rw [hH]
  cases lrest with
  | nil =>
    -- L = [m, M]
    have hLeq : L = [m, M] := by rw [hLsplit, hlrest]; rfl
    have hlgm : lg = m := by
      have h2 := hlg
      rw [hlrest] at h2
      simpa using h2.symm
    have hmM_edge : (m, M) ∈ adjPairs L := by
      rw [← hlgm]
      exact hlgM_edge
    cases urest with
    | nil =>
      -- U = [M, m]: all points collinear, contradiction
      have hUeq : U = [M, m] := by rw [hUsplit, hurest]; rfl
      have hMm_edge : (M, m) ∈ adjPairs U := by
        rw [hUeq]
        exact List.mem_cons_self _ _
      have hzero : ∀ q ∈ S, crossProduct m M q = 0 := by
        intro q hq
        have h1 := hLedges (m, M) hmM_edge q hq
        have h2 := hUedges (M, m) hMm_edge q hq
        have h3 : crossProduct M m q = -crossProduct m M q := by
          simp only [crossProduct_def]
          ring
        rw [h3] at h2
        linarith
      exact absurd
        (collinear_trans m M x0 y0 z0 hmMne (hzero x0 hx0) (hzero y0 hy0)
          (hzero z0 hz0)) hxyz0
    | cons u1 urest' =>
      -- L = [m, M], U = M :: u1 :: urest' ++ [m]
      have hUshape : U = M :: u1 :: (urest' ++ [m]) := by
        rw [hUsplit, hurest]
        simp
      have hu1U : u1 ∈ U := by rw [hUshape]; simp
      have hu1S : u1 ∈ S := hUmem u1 hu1U
      have hu1M : lexLt u1 M := by
        have h2 := hUdesc
        rw [hUshape] at h2
        exact (List.pairwise_cons.mp h2).1 u1 (by simp)
      have hMu1_edge : (M, u1) ∈ adjPairs U := by
        rw [hUshape]
        show (M, u1) ∈ (M, u1) :: adjPairs (u1 :: (urest' ++ [m]))
        exact List.mem_cons_self _ _
      have hltU : lastTwoTurn U M := by
        rw [hUsplit2, lastTwoTurn_concat2]
        exact hjm M hMmem hmMlt hmM_edge
      have hstep1 : TurnsP (U ++ [M]) := (TurnsP_snoc U M).mpr ⟨hUturns, hltU⟩
      have htake : TurnsP ([m] ++ (U ++ [M]).take 2) := by
        rw [show (U ++ [M]).take 2 = [M, u1] by rw [hUshape]; rfl]
        refine ⟨?_, trivial⟩
        rw [← hlgm]
        exact hjM u1 hu1S hu1M hMu1_edge
      have hstep2 : TurnsP ([m] ++ (U ++ [M])) :=
        TurnsP_append_general [m] (U ++ [M]) htake hstep1
      have heq : (L.dropLast ++ U.dropLast) ++ (L.dropLast ++ U.dropLast).take 2 =
          [m] ++ (U ++ [M]) := by
        rw [hlrest, hurest, hUshape]
        simp
      rw [heq]
      exact hstep2
  | cons l1 lrest' =>
    have hLshape : L = m :: l1 :: (lrest' ++ [M]) := by
      rw [hLsplit, hlrest]
      simp
    have hl1L : l1 ∈ L := by rw [hLshape]; simp
    have hl1S : l1 ∈ S := hLmem l1 hl1L
    have hml1 : lexLt m l1 := by
      have h2 := hLlt
      rw [hLshape] at h2
      exact (List.pairwise_cons.mp h2).1 l1 (by simp)
    have hml1_edge : (m, l1) ∈ adjPairs L := by
      rw [hLshape]
      show (m, l1) ∈ (m, l1) :: adjPairs (l1 :: (lrest' ++ [M]))
      exact List.mem_cons_self _ _
    have hltLm : ∀ C, C ∈ S → lexLt C M → (M, C) ∈ adjPairs U → lastTwoTurn L C := by
      intro C hC hCM hedge
      rw [hLsplit2, lastTwoTurn_concat2]
      exact hjM C hC hCM hedge
    cases urest with
    | nil =>
      -- U = [M, m], H = L
      have hUeq : U = [M, m] := by rw [hUsplit, hurest]; rfl
      have hugM : ug = M := by
        have h2 := hug
        rw [hurest] at h2
        simpa using h2.symm
      have hMm_edge : (M, m) ∈ adjPairs U := by
        rw [hUeq]
        exact List.mem_cons_self _ _
      have h1 : TurnsP (L ++ [m]) :=
        (TurnsP_snoc L m).mpr ⟨hLturns, hltLm m hmmem hmMlt hMm_edge⟩
      have hlt2 : lastTwoTurn (L ++ [m]) l1 := by
        rw [show L ++ [m] = L.dropLast ++ [M, m] by
          conv_lhs => rw [hLsplit]
          simp]
        rw [lastTwoTurn_concat2, ← hugM]
        exact hjm l1 hl1S hml1 hml1_edge
      have h2 : TurnsP ((L ++ [m]) ++ [l1]) := (TurnsP_snoc _ _).mpr ⟨h1, hlt2⟩
      have heq : (L.dropLast ++ U.dropLast) ++ (L.dropLast ++ U.dropLast).take 2 =
          (L ++ [m]) ++ [l1] := by
        rw [hlrest, hurest, hLshape]
        simp
      rw [heq]
      exact h2
    | cons u1 urest' =>
      -- general case: both chains have interior points
      have hUshape : U = M :: u1 :: (urest' ++ [m]) := by
        rw [hUsplit, hurest]
        simp
      have hu1U : u1 ∈ U := by rw [hUshape]; simp
      have hu1S : u1 ∈ S := hUmem u1 hu1U
      have hu1M : lexLt u1 M := by
        have h2 := hUdesc
        rw [hUshape] at h2
        exact (List.pairwise_cons.mp h2).1 u1 (by simp)
      have hMu1_edge : (M, u1) ∈ adjPairs U := by
        rw [hUshape]
        show (M, u1) ∈ (M, u1) :: adjPairs (u1 :: (urest' ++ [m]))
        exact List.mem_cons_self _ _
      have hUturns2 : TurnsP (U.dropLast ++ [m]) := by
        rw [← hUsplit]
        exact hUturns
      obtain ⟨hub_turns, hub_last⟩ := (TurnsP_snoc _ _).mp hUturns2
      have htk : TurnsP (L.dropLast ++ (U.dropLast).take 2) := by
        rw [show (U.dropLast).take 2 = [M, u1] by rw [hurest]; rfl]
        rw [show L.dropLast ++ [M, u1] = (L.dropLast ++ [M]) ++ [u1] by simp, ← hLsplit]
        exact (TurnsP_snoc L u1).mpr ⟨hLturns, hltLm u1 hu1S hu1M hMu1_edge⟩
      have hTH : TurnsP (L.dropLast ++ U.dropLast) :=
        TurnsP_append_general _ _ htk hub_turns
      have hltHm : lastTwoTurn (L.dropLast ++ U.dropLast) m := by
        rw [lastTwoTurn_append_right _ _ _ (by rw [hurest]; simp)]
        exact hub_last
      have h1 : TurnsP ((L.dropLast ++ U.dropLast) ++ [m]) :=
        (TurnsP_snoc _ _).mpr ⟨hTH, hltHm⟩
      have hlt2 : lastTwoTurn ((L.dropLast ++ U.dropLast) ++ [m]) l1 := by
        rw [show (L.dropLast ++ U.dropLast) ++ [m] =
            (L.dropLast ++ U.dropLast.dropLast) ++ [ug, m] by
          conv_lhs => rw [show U.dropLast = U.dropLast.dropLast ++ [ug] from
            eq_dropLast_concat hug]
          simp]
        rw [lastTwoTurn_concat2]
        exact hjm l1 hl1S hml1 hml1_edge
      have h2 : TurnsP (((L.dropLast ++ U.dropLast) ++ [m]) ++ [l1]) :=
        (TurnsP_snoc _ _).mpr ⟨h1, hlt2⟩
      have heq : (L.dropLast ++ U.dropLast) ++ (L.dropLast ++ U.dropLast).take 2 =
          ((L.dropLast ++ U.dropLast) ++ [m]) ++ [l1] := by
        rw [hlrest]
        simp
      rw [heq]
      exact h2

theorem convexHull_contains_and_convex_witness :
    TurnsP (calculateConvexHull [⟨1, 0⟩, ⟨0, 0⟩, ⟨0, 1⟩] ++
        (calculateConvexHull [⟨1, 0⟩, ⟨0, 0⟩, ⟨0, 1⟩]).take 2) ∧
      ∀ q ∈ ([⟨1, 0⟩, ⟨0, 0⟩, ⟨0, 1⟩] : List Point),
        ∀ e ∈ cyclicPairs (calculateConvexHull [⟨1, 0⟩, ⟨0, 0⟩, ⟨0, 1⟩]),
          0 ≤ crossProduct e.1 e.2 q :=
  convexHull_contains_and_convex [⟨1, 0⟩, ⟨0, 0⟩, ⟨0, 1⟩]
    (by norm_num [List.nodup_cons, List.mem_cons, Point.mk.injEq])
    (by norm_num)
    ⟨⟨1, 0⟩, by simp, ⟨0, 0⟩, by simp, ⟨0, 1⟩, by simp, by norm_num [crossProduct_def]⟩

theorem cross_antisym (a w b : Point) : crossProduct b w a = -crossProduct a w b := by
  simp only [crossProduct_def]
  ring

set_option maxHeartbeats 1600000 in
theorem extreme_strict (p w s a b : Point)
    (hpw : lexLt p w) (hws : lexLt w s) (haw : lexLt a w) (hwb : lexLt w b)
    (hT : 0 < crossProduct p w s)
    (ha1 : 0 ≤ crossProduct p w a) (hb1 : 0 ≤ crossProduct p w b)
    (ha2 : 0 ≤ crossProduct w s a) (hb2 : 0 ≤ crossProduct w s b) :
    0 < crossProduct a w b := by
  have I1 : (w.x - p.x) * crossProduct a w b =
      (b.x - w.x) * crossProduct p w a - (a.x - w.x) * crossProduct p w b := by
    simp only [crossProduct_def]; ring
  have I1y : (w.y - p.y) * crossProduct a w b =
      (b.y - w.y) * crossProduct p w a - (a.y - w.y) * crossProduct p w b := by
    simp only [crossProduct_def]; ring
  have I2 : (s.x - w.x) * crossProduct a w b =
      (b.x - w.x) * crossProduct w s a - (a.x - w.x) * crossProduct w s b := by
    simp only [crossProduct_def]; ring
  have I2y : (s.y - w.y) * crossProduct a w b =
      (b.y - w.y) * crossProduct w s a - (a.y - w.y) * crossProduct w s b := by
    simp only [crossProduct_def]; ring
  have K : (a.x - w.x) * crossProduct p w s =
      (s.x - w.x) * crossProduct p w a - (w.x - p.x) * crossProduct w s a := by
    simp only [crossProduct_def]; ring
  have Ky : (a.y - w.y) * crossProduct p w s =
      (s.y - w.y) * crossProduct p w a - (w.y - p.y) * crossProduct w s a := by
    simp only [crossProduct_def]; ring
  have Kv : (b.x - w.x) * crossProduct p w s =
      (s.x - w.x) * crossProduct p w b - (w.x - p.x) * crossProduct w s b := by
    simp only [crossProduct_def]; ring
  have hax : a.x ≤ w.x := lexLt_x_le haw
  have hbx : w.x ≤ b.x := lexLt_x_le hwb
  have hpx : p.x ≤ w.x := lexLt_x_le hpw
  have hsx : w.x ≤ s.x := lexLt_x_le hws
  have hd : p.x < w.x ∨ w.x < s.x := by
    by_contra hcon
    push_neg at hcon
    have h1 : p.x = w.x := le_antisymm hpx hcon.1
    have h2 : w.x = s.x := le_antisymm hsx hcon.2
    have hz : crossProduct p w s = 0 := by
      simp only [crossProduct_def]
      rw [show w.x - p.x = 0 by linarith, show s.x - p.x = 0 by linarith]
      ring
    linarith
  have hG0 : 0 ≤ crossProduct a w b := by
    by_contra hneg
    push_neg at hneg
    rcases hd with h | h
    · have t1 : 0 ≤ (b.x - w.x) * crossProduct p w a := mul_nonneg (by linarith) ha1
      have t2 : 0 ≤ (w.x - a.x) * crossProduct p w b := mul_nonneg (by linarith) hb1
      have t3 : (w.x - p.x) * crossProduct a w b < 0 :=
        mul_neg_of_pos_of_neg (by linarith) hneg
      nlinarith [I1]
    · have t1 : 0 ≤ (b.x - w.x) * crossProduct w s a := mul_nonneg (by linarith) ha2
      have t2 : 0 ≤ (w.x - a.x) * crossProduct w s b := mul_nonneg (by linarith) hb2
      have t3 : (s.x - w.x) * crossProduct a w b < 0 :=
        mul_neg_of_pos_of_neg (by linarith) hneg
      nlinarith [I2]
  rcases lt_or_eq_of_le hG0 with hpos | hGeq
  · exact hpos
  exfalso
  have hG : crossProduct a w b = 0 := hGeq.symm
  rcases lt_or_eq_of_le hax with haxlt | haxeq
  · -- a.x < w.x
    have e1 : (b.x - w.x) * crossProduct p w a - (a.x - w.x) * crossProduct p w b = 0 := by
      have h := I1
      rw [hG, mul_zero] at h
      linarith
    have hD1v : crossProduct p w b = 0 := by
      have t1 : 0 ≤ (b.x - w.x) * crossProduct p w a := mul_nonneg (by linarith) ha1
      have t2 : 0 ≤ (w.x - a.x) * crossProduct p w b := mul_nonneg (by linarith) hb1
      have ht : (w.x - a.x) * crossProduct p w b = 0 := by linarith
      rcases mul_eq_zero.mp ht with h | h
      · exact absurd h (by linarith)
      · exact h
    have e2 : (b.x - w.x) * crossProduct w s a - (a.x - w.x) * crossProduct w s b = 0 := by
      have h := I2
      rw [hG, mul_zero] at h
      linarith
    have hD2v : crossProduct w s b = 0 := by
      have t1 : 0 ≤ (b.x - w.x) * crossProduct w s a := mul_nonneg (by linarith) ha2
      have t2 : 0 ≤ (w.x - a.x) * crossProduct w s b := mul_nonneg (by linarith) hb2
      have ht : (w.x - a.x) * crossProduct w s b = 0 := by linarith
      rcases mul_eq_zero.mp ht with h | h
      · exact absurd h (by linarith)
      · exact h
    have hbxeq : b.x = w.x := by
      have hz : (b.x - w.x) * crossProduct p w s = 0 := by
        rw [Kv, hD1v, hD2v]
        ring
      rcases mul_eq_zero.mp hz with h | h
      · linarith
      · exact absurd h (ne_of_gt hT)
    have hby : w.y < b.y := by
      rcases (lexLt_def w b).mp hwb with h | ⟨h1, h2⟩
      · exact absurd h (by linarith)
      · exact h2
    have hD1u : crossProduct p w a = 0 := by
      have e : (b.y - w.y) * crossProduct p w a - (a.y - w.y) * crossProduct p w b = 0 := by
        have h := I1y
        rw [hG, mul_zero] at h
        linarith
      rw [hD1v] at e
      have ht : (b.y - w.y) * crossProduct p w a = 0 := by linarith
      rcases mul_eq_zero.mp ht with h | h
      · exact absurd h (by linarith)
      · exact h
    have hD2u : crossProduct w s a = 0 := by
      have e : (b.y - w.y) * crossProduct w s a - (a.y - w.y) * crossProduct w s b = 0 := by
        have h := I2y
        rw [hG, mul_zero] at h
        linarith
      rw [hD2v] at e
      have ht : (b.y - w.y) * crossProduct w s a = 0 := by linarith
      rcases mul_eq_zero.mp ht with h | h
      · exact absurd h (by linarith)
      · exact h
    have hz : (a.x - w.x) * crossProduct p w s = 0 := by
      rw [K, hD1u, hD2u]
      ring
    rcases mul_eq_zero.mp hz with h | h
    · exact absurd h (by linarith)
    · exact absurd h (ne_of_gt hT)
  · -- a.x = w.x
    have hay : a.y < w.y := by
      rcases (lexLt_def a w).mp haw with h | ⟨h1, h2⟩
      · exact absurd h (by linarith)
      · exact h2
    rcases lt_or_eq_of_le hbx with hbxlt | hbxeq
    · -- w.x < b.x
      have hD1u : crossProduct p w a = 0 := by
        have e : (b.x - w.x) * crossProduct p w a - (a.x - w.x) * crossProduct p w b = 0 := by
          have h := I1
          rw [hG, mul_zero] at h
          linarith
        rw [show a.x - w.x = 0 by linarith] at e
        have ht : (b.x - w.x) * crossProduct p w a = 0 := by linarith
        rcases mul_eq_zero.mp ht with h | h
        · exact absurd h (by linarith)
        · exact h
      have hD2u : crossProduct w s a = 0 := by
        have e : (b.x - w.x) * crossProduct w s a - (a.x - w.x) * crossProduct w s b = 0 := by
          have h := I2
          rw [hG, mul_zero] at h
          linarith
        rw [show a.x - w.x = 0 by linarith] at e
        have ht : (b.x - w.x) * crossProduct w s a = 0 := by linarith
        rcases mul_eq_zero.mp ht with h | h
        · exact absurd h (by linarith)
        · exact h
      have hz : (a.y - w.y) * crossProduct p w s = 0 := by
        rw [Ky, hD1u, hD2u]
        ring
      rcases mul_eq_zero.mp hz with h | h
      · exact absurd h (by linarith)
      · exact absurd h (ne_of_gt hT)
    · -- b.x = w.x : both a and b vertically aligned with w
      have hD1u_form : crossProduct p w a = (w.x - p.x) * (a.y - w.y) := by
        simp only [crossProduct_def]
        rw [haxeq]
        ring
      have hD2u_form : crossProduct w s a = (s.x - w.x) * (a.y - w.y) := by
        simp only [crossProduct_def]
        rw [haxeq]
        ring
      have hpxeq : p.x = w.x := by
        by_contra hne
        have hlt : p.x < w.x := lt_of_le_of_ne hpx hne
        nlinarith [ha1, hD1u_form]
      have hsxeq : w.x = s.x := by
        by_contra hne
        have hlt : w.x < s.x := lt_of_le_of_ne hsx hne
        nlinarith [ha2, hD2u_form]
      have hz : crossProduct p w s = 0 := by
        simp only [crossProduct_def]
        rw [show w.x - p.x = 0 by linarith, show s.x - p.x = 0 by linarith]
        ring
      linarith

theorem popBad_keep (p v : Point) :
    ∀ A : List Point, List.Pairwise (fun x y => lexLt y x) A → v ∈ A →
      (∀ a ∈ A, lexLt a v → 0 < crossProduct a v p) →
      v ∈ popBad p A := by
  intro A
  induction A with
  | nil => intro _ hv _; simp at hv
  | cons b rest ih =>
    intro hpair hv hcond
    cases rest with
    | nil => simpa [popBad] using hv
    | cons a t =>
      by_cases hc : crossProduct a b p ≤ 0
      · have he : popBad p (b :: a :: t) = popBad p (a :: t) := by simp [popBad, hc]
        rw [he]
        rcases List.mem_cons.mp hv with rfl | hv'
        · have hab : lexLt a v := (List.pairwise_cons.mp hpair).1 a (by simp)
          have := hcond a (by simp) hab
          linarith
        · exact ih (List.Pairwise.sublist (by simp) hpair) hv'
            (fun x hx hlt => hcond x (List.mem_cons_of_mem b hx) hlt)
      · have he : popBad p (b :: a :: t) = b :: a :: t := by simp [popBad, hc]
        rw [he]
        exact hv

theorem hullFold_mem (v : Point) :
    ∀ (R A P : List Point),
      (P ++ R).Pairwise lexLt →
      A.reverse.Sublist P →
      v ∈ A →
      (∀ a ∈ P, ∀ q ∈ R, lexLt a v → lexLt v q → 0 < crossProduct a v q) →
      v ∈ R.foldl hullStep A := by
  intro R
  induction R with
  | nil =>
    intro A P _ _ hv _
    exact hv
  | cons p R' ih =>
    intro A P hsort hsub hv hext
    have hPsort : P.Pairwise lexLt := (List.pairwise_append.mp hsort).1
    have hdesc : List.Pairwise (fun x y => lexLt y x) A := desc_of_sublist hsub hPsort
    have hvP : v ∈ P := List.Sublist.mem (List.mem_reverse.mpr hv) hsub
    have hvp : lexLt v p :=
      (List.pairwise_append.mp hsort).2.2 v hvP p (by simp)
    have hAmem : ∀ x ∈ A, x ∈ P := fun x hx =>
      List.Sublist.mem (List.mem_reverse.mpr hx) hsub
    have hv' : v ∈ hullStep A p := by
      apply List.mem_cons_of_mem
      apply popBad_keep p v A hdesc hv
      intro a ha hlt
      exact hext a (hAmem a ha) p (by simp) hlt hvp
    have hsub' : (hullStep A p).reverse.Sublist (P ++ [p]) := by
      show (p :: popBad p A).reverse.Sublist (P ++ [p])
      rw [List.reverse_cons]
      refine List.Sublist.append ?_ (List.Sublist.refl _)
      obtain ⟨tA, htA⟩ := popBad_suffix p A
      have hps : (popBad p A).reverse.Sublist A.reverse := by
        rw [show A.reverse = (popBad p A).reverse ++ tA.reverse by
          rw [← List.reverse_append, htA]]
        exact List.sublist_append_left _ _
      exact hps.trans hsub
    show v ∈ R'.foldl hullStep (hullStep A p)
    apply ih (hullStep A p) (P ++ [p])
      (by rw [show (P ++ [p]) ++ R' = P ++ p :: R' by simp]; exact hsort)
      hsub' hv'
    intro a ha q hq hav hvq
    rcases List.mem_append.mp ha with haP | hap
    · exact hext a haP q (List.mem_cons_of_mem p hq) hav hvq
    · have hap' : a = p := by simpa using hap
      subst hap'
      exact absurd rfl (lexLt_ne (lexLt_trans' hvp hav))

theorem chain_complete (S : List Point) (hs : S.Pairwise lexLt) (v : Point) (hv : v ∈ S)
    (hext : ∀ a ∈ S, ∀ b ∈ S, lexLt a v → lexLt v b → 0 < crossProduct a v b) :
    v ∈ chainOf S := by
  obtain ⟨S1, S2, hsplit0⟩ := List.append_of_mem hv
  show v ∈ (S.foldl hullStep []).reverse
  rw [List.mem_reverse]
  have hsplit : S.foldl hullStep [] =
      S2.foldl hullStep (hullStep (S1.foldl hullStep []) v) := by
    rw [hsplit0, show S1 ++ v :: S2 = (S1 ++ [v]) ++ S2 by simp, List.foldl_append,
      List.foldl_append]
    rfl
  rw [hsplit]
  have hS1sort : S1.Pairwise lexLt := by
    have h := hs
    rw [hsplit0] at h
    exact (List.pairwise_append.mp h).1
  have hbase := hullFold_inv S1 [] [] (by simpa using hS1sort) (by simp) (by simp)
    (by simp) trivial trivial (fun _ => rfl)
  obtain ⟨hsub0, _, _, _, _, _⟩ := hbase
  rw [List.nil_append] at hsub0
  apply hullFold_mem v S2 (hullStep (S1.foldl hullStep []) v) (S1 ++ [v])
  · rw [show (S1 ++ [v]) ++ S2 = S1 ++ v :: S2 by simp, ← hsplit0]
    exact hs
  · show (v :: popBad v (S1.foldl hullStep [])).reverse.Sublist (S1 ++ [v])
    rw [List.reverse_cons]
    refine List.Sublist.append ?_ (List.Sublist.refl _)
    obtain ⟨tA, htA⟩ := popBad_suffix v (S1.foldl hullStep [])
    have hps : (popBad v (S1.foldl hullStep [])).reverse.Sublist
        (S1.foldl hullStep []).reverse := by
      rw [show (S1.foldl hullStep []).reverse =
          (popBad v (S1.foldl hullStep [])).reverse ++ tA.reverse by
        rw [← List.reverse_append, htA]]
      exact List.sublist_append_left _ _
    exact hps.trans hsub0
  · exact List.mem_cons_self _ _
  · intro a ha q hq hav hvq
    refine hext a ?_ q ?_ hav hvq
    · rw [hsplit0]
      rcases List.mem_append.mp ha with h | h
      · exact List.mem_append_left _ h
      · have : a = v := by simpa using h
        subst this
        exact List.mem_append_right _ (by simp)
    · rw [hsplit0]
      exact List.mem_append_right _ (List.mem_cons_of_mem v hq)

theorem TurnsP_mid :
    ∀ (X : List Point) (a b c : Point) (Y : List Point),
      TurnsP (X ++ a :: b :: c :: Y) → 0 < crossProduct a b c := by
  intro X
  induction X with
  | nil => intro a b c Y h; exact h.1
  | cons x X' ih =>
    intro a b c Y h
    exact ih a b c Y (TurnsP_tail h)

theorem mem_adjPairs_append_cons :
    ∀ (X : List Point) (a b : Point) (Y : List Point),
      (a, b) ∈ adjPairs (X ++ a :: b :: Y) := by
  intro X
  induction X with
  | nil => intro a b Y; exact List.mem_cons_self _ _
  | cons x X' ih =>
    intro a b Y
    obtain ⟨u, t, heq⟩ : ∃ u t, X' ++ a :: b :: Y = u :: t :=
      List.exists_cons_of_ne_nil (by simp)
    show (a, b) ∈ adjPairs (x :: (X' ++ a :: b :: Y))
    rw [heq]
    show (a, b) ∈ (x, u) :: adjPairs (u :: t)
    apply List.mem_cons_of_mem
    rw [← heq]
    exact ih a b Y

theorem mem_interior_split {l : List Point} {x m M : Point} (hx : x ∈ l)
    (hhead : l.head? = some m) (hlast : l.getLast? = some M)
    (hxm : x ≠ m) (hxM : x ≠ M) :
    ∃ X Y wp ws, l = X ++ wp :: x :: ws :: Y := by
  obtain ⟨X0, Y0, h0⟩ := List.append_of_mem hx
  have hX0 : X0 ≠ [] := by
    intro h
    rw [h0, h] at hhead
    simp at hhead
    exact hxm hhead
  have hY0 : Y0 ≠ [] := by
    intro h
    rw [h0, h] at hlast
    rw [show X0 ++ [x] = X0 ++ [x] from rfl, List.getLast?_concat] at hlast
    exact hxM (Option.some.inj hlast)
  obtain ⟨wp, hwp⟩ : ∃ wp, X0.getLast? = some wp :=
    ⟨_, List.getLast?_eq_getLast _ hX0⟩
  obtain ⟨ws, Y0', hY0'⟩ := List.exists_cons_of_ne_nil hY0
  refine ⟨X0.dropLast, Y0', wp, ws, ?_⟩
  rw [h0, hY0', show X0 = X0.dropLast ++ [wp] from eq_dropLast_concat hwp]
  simp

theorem sorted_head_eq {l : List Point} (hs : l.Pairwise lexLt) {m : Point} (hm : m ∈ l)
    (hmin : ∀ y ∈ l, lexLe m y) : l.head? = some m := by
  cases l with
  | nil => simp at hm
  | cons a t =>
    have h1 : lexLe m a := hmin a (by simp)
    have h2 : lexLe a m := mem_head_lexLe hs hm a rfl
    rw [lexLe_antisymm h2 h1]
    rfl

theorem sorted_getLast_eq {l : List Point} (hs : l.Pairwise lexLt) {M : Point}
    (hM : M ∈ l) (hmax : ∀ y ∈ l, lexLe y M) : l.getLast? = some M := by
  have hne : l ≠ [] := by
    intro h
    rw [h] at hM
    simp at hM
  obtain ⟨w, hw⟩ : ∃ w, l.getLast? = some w := ⟨_, List.getLast?_eq_getLast l hne⟩
  have h1 : lexLe M w := mem_lexLe_getLast hs hM w hw
  have h2 : lexLe w M := hmax w (List.mem_of_mem_getLast? hw)
  rw [hw, lexLe_antisymm h2 h1]

theorem foldl_collinear (S : List Point)
    (hcol : ∀ x ∈ S, ∀ y ∈ S, ∀ z ∈ S, crossProduct x y z = 0)
    (m : Point) (hm : m ∈ S) :
    ∀ (R : List Point) (c : Point), c ∈ S → (∀ p ∈ R, p ∈ S) →
      R.foldl hullStep [c, m] = [R.getLastD c, m] := by
  intro R
  induction R with
  | nil => intro c _ _; rfl
  | cons p R' ih =>
    intro c hc hR
    have hstep : hullStep [c, m] p = [p, m] := by
      show p :: popBad p [c, m] = [p, m]
      have hz : crossProduct m c p ≤ 0 :=
        le_of_eq (hcol m hm c hc p (hR p (by simp)))
      simp [popBad, hz]
    show R'.foldl hullStep (hullStep [c, m] p) = _
    rw [hstep, ih p (hR p (by simp)) (fun q hq => hR q (by simp [hq])),
      List.getLastD_cons]

theorem chainOf_collinear {S : List Point}
    (hcol : ∀ x ∈ S, ∀ y ∈ S, ∀ z ∈ S, crossProduct x y z = 0)
    {s1 s2 : Point} {rest : List Point} (hS : S = s1 :: s2 :: rest) :
    chainOf S = [s1, rest.getLastD s2] := by
  show (S.foldl hullStep []).reverse = _
  have h1 : S.foldl hullStep [] = rest.foldl hullStep [s2, s1] := by
    rw [hS]
    rfl
  rw [h1, foldl_collinear S hcol s1 (by rw [hS]; simp) rest s2 (by rw [hS]; simp)
    (fun p hp => by rw [hS]; simp [hp])]
  rfl

theorem calculateConvexHull_eq_chains (X : List Point) (h : ¬ X.length < 3) :
    calculateConvexHull X =
      (chainOf (X.insertionSort lexLe)).dropLast ++
        (chainOf (X.insertionSort lexLe).reverse).dropLast := by
  unfold calculateConvexHull
  rw [if_neg h]

theorem mem_dropLast_of_ne {l : List Point} {x z : Point} (hx : x ∈ l)
    (hlast : l.getLast? = some z) (hne : x ≠ z) : x ∈ l.dropLast := by
  have h0 := eq_dropLast_concat hlast
  rw [h0] at hx
  rcases List.mem_append.mp hx with h | h
  · exact h
  · exact absurd (by simpa using h) hne

set_option maxHeartbeats 1600000 in
/-- C9: `calculateConvexHull` is idempotent: applied to its own output (for a
duplicate-free input point set) it returns the same set of points. -/
theorem calculateConvexHull_idempotent (pts : List Point) (hnodup : pts.Nodup) :
    ∀ q, q ∈ calculateConvexHull (calculateConvexHull pts) ↔
      q ∈ calculateConvexHull pts := by
  by_cases hlen : pts.length < 3
  · have h1 : calculateConvexHull pts = pts := by
      unfold calculateConvexHull
      rw [if_pos hlen]
    simp [h1]
  · by_cases hcolAll : ∀ x ∈ pts, ∀ y ∈ pts, ∀ z ∈ pts, crossProduct x y z = 0
    · -- all input points collinear: the hull is a 2-point segment, fixed by a second pass
      have hperm : (pts.insertionSort lexLe).Perm pts := List.perm_insertionSort lexLe pts
      set S := pts.insertionSort lexLe with hSdef
      have hmemS : ∀ q, q ∈ S ↔ q ∈ pts := fun q => hperm.mem_iff
      have hSlen : S.length = pts.length := hperm.length_eq
      have hcolS : ∀ x ∈ S, ∀ y ∈ S, ∀ z ∈ S, crossProduct x y z = 0 := by
        intro x hx y hy z hz
        exact hcolAll x ((hmemS x).mp hx) y ((hmemS y).mp hy) z ((hmemS z).mp hz)
      have hcolSrev : ∀ x ∈ S.reverse, ∀ y ∈ S.reverse, ∀ z ∈ S.reverse,
          crossProduct x y z = 0 := by
        intro x hx y hy z hz
        exact hcolS x (List.mem_reverse.mp hx) y (List.mem_reverse.mp hy) z
          (List.mem_reverse.mp hz)
      have hSne : S ≠ [] := by
        intro h
        rw [h] at hSlen
        simp at hSlen
        omega
      obtain ⟨s1, t1, hS1⟩ := List.exists_cons_of_ne_nil hSne
      have ht1ne : t1 ≠ [] := by
        intro h
        rw [hS1, h] at hSlen
        simp at hSlen
        omega
      obtain ⟨s2, t2, hS2⟩ := List.exists_cons_of_ne_nil ht1ne
      have hSrevne : S.reverse ≠ [] := by
        intro h
        rw [List.reverse_eq_nil_iff] at h
        exact hSne h
      obtain ⟨r1, u1, hR1⟩ := List.exists_cons_of_ne_nil hSrevne
      have hu1ne : u1 ≠ [] := by
        intro h
        have hlen1 : S.reverse.length = 1 := by rw [hR1, h]; rfl
        rw [List.length_reverse] at hlen1
        omega
      obtain ⟨r2, u2, hR2⟩ := List.exists_cons_of_ne_nil hu1ne
      have hlow : chainOf S = [s1, t2.getLastD s2] :=
        chainOf_collinear hcolS (by rw [hS1, hS2])
      have hup : chainOf S.reverse = [r1, u2.getLastD r2] :=
        chainOf_collinear hcolSrev (by rw [hR1, hR2])
      have hH : calculateConvexHull pts = [s1, r1] := by
        unfold calculateConvexHull
        rw [if_neg hlen]
        show (chainOf S).dropLast ++ (chainOf S.reverse).dropLast = _
        rw [hlow, hup]
        rfl
      have hH2 : calculateConvexHull (calculateConvexHull pts) =
          calculateConvexHull pts := by
        rw [hH]
        unfold calculateConvexHull
        rw [if_pos (by norm_num)]
      rw [hH2]
      intro q
      rfl
    · -- main case: at least one noncollinear triple
      push_neg at hcolAll
      obtain ⟨x0, hx0, y0, hy0, z0, hz0, hxyz0⟩ := hcolAll
      have hperm : (pts.insertionSort lexLe).Perm pts := List.perm_insertionSort lexLe pts
      set S := pts.insertionSort lexLe with hSdef
      have hmemS : ∀ q, q ∈ S ↔ q ∈ pts := fun q => hperm.mem_iff
      have hSlen : S.length = pts.length := hperm.length_eq
      have hsorted : S.Pairwise lexLe := List.sorted_insertionSort lexLe pts
      have hSnodup : S.Pairwise (fun a b => a ≠ b) := hperm.nodup_iff.mpr hnodup
      have hSlt : S.Pairwise lexLt :=
        (List.Pairwise.and hsorted hSnodup).imp (fun h => lexLt_of_lexLe_ne h.1 h.2)
      rw [← hmemS] at hx0 hy0 hz0
      obtain ⟨hLsub, hLhead, hLlast, hLturns, hLedges, hLnil⟩ := chain_spec S hSlt
      set L := chainOf S with hLdef
      have hTlt : ((S.reverse.map negPt) : List Point).Pairwise lexLt := by
        rw [List.pairwise_map, List.pairwise_reverse]
        exact hSlt.imp (fun h => (lexLt_neg _ _).mpr h)
      obtain ⟨hUsub', hUhead', hUlast', hUturns', hUedges', hUnil'⟩ :=
        chain_spec (S.reverse.map negPt) hTlt
      rw [chainOf_neg] at hUsub' hUhead' hUlast' hUturns' hUedges' hUnil'
      set U := chainOf S.reverse with hUdef
      have hUhead : U.head? = S.getLast? := by
        apply optMap_negPt_cancel
        calc U.head?.map negPt = (U.map negPt).head? := (List.head?_map _ _).symm
          _ = (S.reverse.map negPt).head? := hUhead'
          _ = S.reverse.head?.map negPt := List.head?_map _ _
          _ = S.getLast?.map negPt := by rw [List.head?_reverse]
      have hUlast : U.getLast? = S.head? := by
        apply optMap_negPt_cancel
        calc U.getLast?.map negPt = (U.map negPt).getLast? := (List.getLast?_map _ _).symm
          _ = (S.reverse.map negPt).getLast? := hUlast'
          _ = S.reverse.getLast?.map negPt := List.getLast?_map _ _
          _ = S.head?.map negPt := by rw [List.getLast?_reverse]
      have hUturns : TurnsP U := TurnsP_map_neg hUturns'
      have hUedges : ∀ e ∈ adjPairs U, ∀ q ∈ S, 0 ≤ crossProduct e.1 e.2 q := by
        intro e he q hq
        have he' : (negPt e.1, negPt e.2) ∈ adjPairs (U.map negPt) := by
          rw [adjPairs_map_neg]
          exact List.mem_map_of_mem _ he
        have hq' : negPt q ∈ S.reverse.map negPt :=
          List.mem_map_of_mem _ (List.mem_reverse.mpr hq)
        have h0 := hUedges' _ he' _ hq'
        rwa [cross_neg] at h0
      have hUmem : ∀ x ∈ U, x ∈ S := by
        intro x hx
        have h1 : negPt x ∈ U.map negPt := List.mem_map_of_mem _ hx
        have h2 := List.Sublist.mem h1 hUsub'
        obtain ⟨y, hy, hyx⟩ := List.mem_map.mp h2
        rw [← negPt_inj hyx]
        exact List.mem_reverse.mp hy
      have hUdesc : U.Pairwise (fun a b => lexLt b a) := by
        have h1 : (U.map negPt).Pairwise lexLt := List.Pairwise.sublist hUsub' hTlt
        rw [List.pairwise_map] at h1
        exact h1.imp (fun h => (lexLt_neg _ _).mp h)
      have hLmem : ∀ x ∈ L, x ∈ S := fun x hx => List.Sublist.mem hx hLsub
      have hLlt : L.Pairwise lexLt := List.Pairwise.sublist hLsub hSlt
      have hSne : S ≠ [] := by
        intro h
        rw [h] at hSlen
        simp at hSlen
        omega
      obtain ⟨m, hmS⟩ : ∃ m, S.head? = some m := ⟨S.head hSne, List.head?_eq_head hSne⟩
      obtain ⟨M, hMS⟩ : ∃ M, S.getLast? = some M :=
        ⟨S.getLast hSne, List.getLast?_eq_getLast S hSne⟩
      have hmmem : m ∈ S := List.mem_of_mem_head? hmS
      have hMmem : M ∈ S := List.mem_of_mem_getLast? hMS
      have hminS : ∀ y ∈ S, lexLe m y := fun y hy => mem_head_lexLe hSlt hy m hmS
      have hmaxS : ∀ y ∈ S, lexLe y M := fun y hy => mem_lexLe_getLast hSlt hy M hMS
      have hmMlt : lexLt m M := by
        obtain ⟨rest, hrest⟩ := head?_some_cons hmS
        have hrne : rest ≠ [] := by
          intro h
          rw [hrest, h] at hSlen
          simp at hSlen
          omega
        have hMrest : M ∈ rest := by
          obtain ⟨b, rest', hb⟩ := List.exists_cons_of_ne_nil hrne
          have hgl : (m :: rest).getLast? = rest.getLast? := by
            rw [hb, List.getLast?_cons_cons]
          rw [hrest, hgl] at hMS
          exact List.mem_of_mem_getLast? hMS
        have hSlt2 := hSlt
        rw [hrest] at hSlt2
        exact (List.pairwise_cons.mp hSlt2).1 M hMrest
      have hmMne : m ≠ M := lexLt_ne hmMlt
      have hLne : L ≠ [] := fun h => hSne (hLnil h)
      have hUne : U ≠ [] := by
        intro h
        apply hSne
        have h1 : U.map negPt = [] := by rw [h]; rfl
        have h2 := hUnil' h1
        simpa using h2
      have hLheadm : L.head? = some m := by rw [hLhead, hmS]
      have hLlastM : L.getLast? = some M := by rw [hLlast, hMS]
      have hUheadM : U.head? = some M := by rw [hUhead, hMS]
      have hUlastm : U.getLast? = some m := by rw [hUlast, hmS]
      have hLsplit : L = L.dropLast ++ [M] := eq_dropLast_concat hLlastM
      have hUsplit : U = U.dropLast ++ [m] := eq_dropLast_concat hUlastm
      have hH : calculateConvexHull pts = L.dropLast ++ U.dropLast := by
        unfold calculateConvexHull
        rw [if_neg hlen]
      have hlbody_ne : L.dropLast ≠ [] := by
        intro h
        have h2 := hLheadm
        rw [hLsplit, h] at h2
        simp at h2
        exact hmMne h2.symm
      have hubody_ne : U.dropLast ≠ [] := by
        intro h
        have h2 := hUheadM
        rw [hUsplit, h] at h2
        simp at h2
        exact hmMne h2
      have hlbody_head : (L.dropLast).head? = some m := by
        have h2 := hLheadm
        rw [hLsplit, List.head?_append_of_ne_nil _ hlbody_ne] at h2
        exact h2
      have hubody_head : (U.dropLast).head? = some M := by
        have h2 := hUheadM
        rw [hUsplit, List.head?_append_of_ne_nil _ hubody_ne] at h2
        exact h2
      obtain ⟨lrest, hlrest⟩ := head?_some_cons hlbody_head
      obtain ⟨urest, hurest⟩ := head?_some_cons hubody_head
      have hlbltM : ∀ x ∈ L.dropLast, lexLt x M := by
        intro x hx
        have h2 := hLlt
        rw [hLsplit] at h2
        exact (List.pairwise_append.mp h2).2.2 x hx M (by simp)
      have hubgtm : ∀ x ∈ U.dropLast, lexLt m x := by
        intro x hx
        have h2 := hUdesc
        rw [hUsplit] at h2
        exact (List.pairwise_append.mp h2).2.2 x hx m (by simp)
      -- strict extremeness of interior chain vertices
      have hlow : ∀ w ∈ L.dropLast, w ≠ m → ∀ a ∈ S, ∀ b ∈ S,
          lexLt a w → lexLt w b → 0 < crossProduct a w b := by
        intro w hw hwm a ha b hb haw hwb
        have hwL : w ∈ L := List.mem_of_mem_dropLast hw
        have hwM : w ≠ M := lexLt_ne (hlbltM w hw)
        obtain ⟨X, Y, wp, ws, hsplitw⟩ := mem_interior_split hwL hLheadm hLlastM hwm hwM
        have hLturns2 := hLturns
        rw [hsplitw] at hLturns2
        have hturnw : 0 < crossProduct wp w ws := TurnsP_mid X wp w ws Y hLturns2
        have hedge1 : (wp, w) ∈ adjPairs L := by
          rw [hsplitw]
          exact mem_adjPairs_append_cons X wp w (ws :: Y)
        have hedge2 : (w, ws) ∈ adjPairs L := by
          rw [hsplitw, show X ++ wp :: w :: ws :: Y = (X ++ [wp]) ++ w :: ws :: Y by simp]
          exact mem_adjPairs_append_cons _ w ws Y
        have hLlt2 := hLlt
        rw [hsplitw] at hLlt2
        have hmid := (List.pairwise_append.mp hLlt2).2.1
        have hpw : lexLt wp w := (List.pairwise_cons.mp hmid).1 w (by simp)
        have hws2 : lexLt w ws :=
          (List.pairwise_cons.mp (List.pairwise_cons.mp hmid).2).1 ws (by simp)
        exact extreme_strict wp w ws a b hpw hws2 haw hwb hturnw
          (hLedges _ hedge1 a ha) (hLedges _ hedge1 b hb)
          (hLedges _ hedge2 a ha) (hLedges _ hedge2 b hb)
      have hupp : ∀ w ∈ U.dropLast, w ≠ M → ∀ a ∈ S, ∀ b ∈ S,
          lexLt w a → lexLt b w → 0 < crossProduct a w b := by
        intro w hw hwM a ha b hb hwa hbw
        have hwU : w ∈ U := List.mem_of_mem_dropLast hw
        have hwm : w ≠ m := (lexLt_ne (hubgtm w hw)).symm
        obtain ⟨X, Y, up, us, hsplitw⟩ := mem_interior_split hwU hUheadM hUlastm hwM hwm
        have hUturns2 := hUturns
        rw [hsplitw] at hUturns2
        have hturnw : 0 < crossProduct up w us := TurnsP_mid X up w us Y hUturns2
        have hedge1 : (up, w) ∈ adjPairs U := by
          rw [hsplitw]
          exact mem_adjPairs_append_cons X up w (us :: Y)
        have hedge2 : (w, us) ∈ adjPairs U := by
          rw [hsplitw, show X ++ up :: w :: us :: Y = (X ++ [up]) ++ w :: us :: Y by simp]
          exact mem_adjPairs_append_cons _ w us Y
        have hUdesc2 := hUdesc
        rw [hsplitw] at hUdesc2
        have hmid := (List.pairwise_append.mp hUdesc2).2.1
        have hwup : lexLt w up := (List.pairwise_cons.mp hmid).1 w (by simp)
        have husw : lexLt us w :=
          (List.pairwise_cons.mp (List.pairwise_cons.mp hmid).2).1 us (by simp)
        have hmain := extreme_strict (negPt up) (negPt w) (negPt us) (negPt a) (negPt b)
          ((lexLt_neg _ _).mpr hwup) ((lexLt_neg _ _).mpr husw)
          ((lexLt_neg _ _).mpr hwa) ((lexLt_neg _ _).mpr hbw)
          (by rw [cross_neg]; exact hturnw)
          (by rw [cross_neg]; exact hUedges _ hedge1 a ha)
          (by rw [cross_neg]; exact hUedges _ hedge1 b hb)
          (by rw [cross_neg]; exact hUedges _ hedge2 a ha)
          (by rw [cross_neg]; exact hUedges _ hedge2 b hb)
        rwa [cross_neg] at hmain
      -- the hull is duplicate-free
      have hlbnodup : (L.dropLast).Nodup :=
        (List.Pairwise.sublist (List.dropLast_sublist L) hLlt).imp
          (fun h => lexLt_ne h)
      have hubnodup : (U.dropLast).Nodup :=
        (List.Pairwise.sublist (List.dropLast_sublist U) hUdesc).imp
          (fun h => (lexLt_ne h).symm)
      have hdisj : (L.dropLast).Disjoint (U.dropLast) := by
        intro x hx1 hx2
        have hxm : x ≠ m := (lexLt_ne (hubgtm x hx2)).symm
        have h1 : 0 < crossProduct m x M :=
          hlow x hx1 hxm m hmmem M hMmem (hubgtm x hx2) (hlbltM x hx1)
        have h2 : 0 < crossProduct M x m :=
          hupp x hx2 (lexLt_ne (hlbltM x hx1)) M hMmem m hmmem
            (hlbltM x hx1) (hubgtm x hx2)
        have h3 := cross_antisym m x M
        linarith
      have hH1nodup : (calculateConvexHull pts).Nodup := by
        rw [hH]
        exact List.Nodup.append hlbnodup hubnodup hdisj
      have hH1subS : ∀ x ∈ calculateConvexHull pts, x ∈ S := by
        intro x hx
        rw [hH] at hx
        rcases List.mem_append.mp hx with h | h
        · exact hLmem x (List.mem_of_mem_dropLast h)
        · exact hUmem x (List.mem_of_mem_dropLast h)
      have hmH1 : m ∈ calculateConvexHull pts := by
        rw [hH, hlrest]
        simp
      have hMH1 : M ∈ calculateConvexHull pts := by
        rw [hH, hurest]
        simp
      -- the hull has at least 3 vertices
      have hH1len : ¬ (calculateConvexHull pts).length < 3 := by
        rw [hH, hlrest, hurest]
        simp only [List.length_append, List.length_cons]
        intro hcon
        have hlr : lrest = [] := by
          cases lrest with
          | nil => rfl
          | cons a t => simp at hcon; omega
        have hur : urest = [] := by
          cases urest with
          | nil => rfl
          | cons a t => simp at hcon; omega
        have hLeq : L = [m, M] := by rw [hLsplit, hlrest, hlr]; rfl
        have hUeq : U = [M, m] := by rw [hUsplit, hurest, hur]; rfl
        have hmM_edge : (m, M) ∈ adjPairs L := by
          rw [hLeq]
          exact List.mem_cons_self _ _
        have hMm_edge : (M, m) ∈ adjPairs U := by
          rw [hUeq]
          exact List.mem_cons_self _ _
        have hzero : ∀ q ∈ S, crossProduct m M q = 0 := by
          intro q hq
          have h1 := hLedges (m, M) hmM_edge q hq
          have h2 := hUedges (M, m) hMm_edge q hq
          have h3 : crossProduct M m q = -crossProduct m M q := by
            simp only [crossProduct_def]
            ring
          rw [h3] at h2
          linarith
        exact absurd
          (collinear_trans m M x0 y0 z0 hmMne (hzero x0 hx0) (hzero y0 hy0)
            (hzero z0 hz0)) hxyz0
      -- second pass structure
      have hperm2 : ((calculateConvexHull pts).insertionSort lexLe).Perm
          (calculateConvexHull pts) := List.perm_insertionSort lexLe _
      set S2 := (calculateConvexHull pts).insertionSort lexLe with hS2def
      have hmem2 : ∀ q, q ∈ S2 ↔ q ∈ calculateConvexHull pts := fun q => hperm2.mem_iff
      have hsorted2 : S2.Pairwise lexLe := List.sorted_insertionSort lexLe _
      have hS2nodup : S2.Pairwise (fun a b => a ≠ b) := hperm2.nodup_iff.mpr hH1nodup
      have hS2lt : S2.Pairwise lexLt :=
        (List.Pairwise.and hsorted2 hS2nodup).imp (fun h => lexLt_of_lexLe_ne h.1 h.2)
      have hS2subS : ∀ x ∈ S2, x ∈ S := fun x hx => hH1subS x ((hmem2 x).mp hx)
      obtain ⟨hL2sub, hL2head, hL2last, _, _, _⟩ := chain_spec S2 hS2lt
      set L2 := chainOf S2 with hL2def
      have hT2lt : ((S2.reverse.map negPt) : List Point).Pairwise lexLt := by
        rw [List.pairwise_map, List.pairwise_reverse]
        exact hS2lt.imp (fun h => (lexLt_neg _ _).mpr h)
      obtain ⟨hU2sub', hU2head', hU2last', _, _, _⟩ :=
        chain_spec (S2.reverse.map negPt) hT2lt
      rw [chainOf_neg] at hU2sub' hU2head' hU2last'
      set U2 := chainOf S2.reverse with hU2def
      have hU2head : U2.head? = S2.getLast? := by
        apply optMap_negPt_cancel
        calc U2.head?.map negPt = (U2.map negPt).head? := (List.head?_map _ _).symm
          _ = (S2.reverse.map negPt).head? := hU2head'
          _ = S2.reverse.head?.map negPt := List.head?_map _ _
          _ = S2.getLast?.map negPt := by rw [List.head?_reverse]
      have hU2last : U2.getLast? = S2.head? := by
        apply optMap_negPt_cancel
        calc U2.getLast?.map negPt = (U2.map negPt).getLast? :=
            (List.getLast?_map _ _).symm
          _ = (S2.reverse.map negPt).getLast? := hU2last'
          _ = S2.reverse.getLast?.map negPt := List.getLast?_map _ _
          _ = S2.head?.map negPt := by rw [List.getLast?_reverse]
      have hU2mem : ∀ x ∈ U2, x ∈ S2 := by
        intro x hx
        have h1 : negPt x ∈ U2.map negPt := List.mem_map_of_mem _ hx
        have h2 := List.Sublist.mem h1 hU2sub'
        obtain ⟨y, hy, hyx⟩ := List.mem_map.mp h2
        rw [← negPt_inj hyx]
        exact List.mem_reverse.mp hy
      have hmS2 : S2.head? = some m := by
        apply sorted_head_eq hS2lt ((hmem2 m).mpr hmH1)
        intro y hy
        exact hminS y (hS2subS y hy)
      have hMS2 : S2.getLast? = some M := by
        apply sorted_getLast_eq hS2lt ((hmem2 M).mpr hMH1)
        intro y hy
        exact hmaxS y (hS2subS y hy)
      have hL2headm : L2.head? = some m := by rw [hL2head, hmS2]
      have hL2lastM : L2.getLast? = some M := by rw [hL2last, hMS2]
      have hU2headM : U2.head? = some M := by rw [hU2head, hMS2]
      have hU2lastm : U2.getLast? = some m := by rw [hU2last, hmS2]
      have hH2 : calculateConvexHull (calculateConvexHull pts) =
          L2.dropLast ++ U2.dropLast :=
        calculateConvexHull_eq_chains _ hH1len
      -- completeness: every first-pass hull vertex survives the second pass
      have hkeep : ∀ w ∈ calculateConvexHull pts,
          w ∈ L2.dropLast ++ U2.dropLast := by
        intro w hw
        have hwH := hw
        rw [hH] at hw
        by_cases hwm : w = m
        · subst hwm
          apply List.mem_append_left
          apply mem_dropLast_of_ne (List.mem_of_mem_head? hL2headm) hL2lastM hmMne
        by_cases hwM : w = M
        · subst hwM
          apply List.mem_append_right
          apply mem_dropLast_of_ne (List.mem_of_mem_head? hU2headM) hU2lastm
            (Ne.symm hmMne)
        rcases List.mem_append.mp hw with hwl | hwu
        · -- interior lower-chain vertex: survives into the second lower chain
          have hwS2 : w ∈ S2 := (hmem2 w).mpr hwH
          have hwL2 : w ∈ L2 := by
            apply chain_complete S2 hS2lt w hwS2
            intro a ha b hb hab hwb
            exact hlow w hwl hwm a (hS2subS a ha) b (hS2subS b hb) hab hwb
          exact List.mem_append_left _ (mem_dropLast_of_ne hwL2 hL2lastM hwM)
        · -- interior upper-chain vertex: survives into the second upper chain
          have hwS2 : w ∈ S2 := (hmem2 w).mpr hwH
          have hwT2 : negPt w ∈ S2.reverse.map negPt :=
            List.mem_map_of_mem _ (List.mem_reverse.mpr hwS2)
          have hwU2' : negPt w ∈ chainOf (S2.reverse.map negPt) := by
            apply chain_complete (S2.reverse.map negPt) hT2lt (negPt w) hwT2
            intro a' ha' b' hb' h1 h2
            obtain ⟨a, ha, rfl⟩ := List.mem_map.mp ha'
            obtain ⟨b, hb, rfl⟩ := List.mem_map.mp hb'
            rw [cross_neg]
            exact hupp w hwu hwM a
              (hS2subS a (List.mem_reverse.mp ha))
              b (hS2subS b (List.mem_reverse.mp hb))
              ((lexLt_neg _ _).mp h1) ((lexLt_neg _ _).mp h2)
          rw [chainOf_neg] at hwU2'
          obtain ⟨y, hy, hyw⟩ := List.mem_map.mp hwU2'
          have hwU2 : w ∈ U2 := by
            rw [← negPt_inj hyw]
            exact hy
          exact List.mem_append_right _ (mem_dropLast_of_ne hwU2 hU2lastm hwm)
      -- soundness: the second pass introduces no new points
      intro q
      rw [hH2]
      constructor
      · intro hq
        rcases List.mem_append.mp hq with h | h
        · exact (hmem2 q).mp (List.Sublist.mem (List.mem_of_mem_dropLast h) hL2sub)
        · exact (hmem2 q).mp (hU2mem q (List.mem_of_mem_dropLast h))
      · intro hq
        exact hkeep q hq

theorem calculateConvexHull_idempotent_witness :
    (⟨0, 0⟩ : Point) ∈ calculateConvexHull (calculateConvexHull [⟨0, 0⟩, ⟨2, 0⟩, ⟨1, 3⟩]) ↔
      (⟨0, 0⟩ : Point) ∈ calculateConvexHull [⟨0, 0⟩, ⟨2, 0⟩, ⟨1, 3⟩] :=
  calculateConvexHull_idempotent [⟨0, 0⟩, ⟨2, 0⟩, ⟨1, 3⟩]
    (by norm_num [List.nodup_cons, List.mem_cons, Point.mk.injEq]) ⟨0, 0⟩

end CompGeo
